import Mathlib

/-!
Verification of the wormhole environment assembler against its source.

Each section embeds (shallowly) the C data structures and functions cited by
the claims, translated from the repository sources:
  * registry.c        - capability version comparison
  * return.c          - the path-state tree, its lookup and walk iterator
  * profiles.c        - path directives, layer and environment setup,
                        reference-layer flattening
  * digger.c          - harvest pass (combine_tree)
  * auto-profile.c    - stray-file gate
  * config parsing/writing (the parser and writer of wormhole.conf)

C strings (char *) are modelled as Lean values; a `char *` that may be NULL
becomes an `Option`.  Machine ints hold small enum codes and counters here, so
they are modelled as `Nat`.  Filesystem and mount syscalls are external to the
program text; where a function consults them, the embedding takes their
outcome as an explicit argument.
-/

namespace Wormhole

/-- C strings viewed as lists of characters (the terminating NUL is dropped;
`strcmp` on the NUL is recovered by the shorter-list cases). -/
abbrev Str := List Char

/-! ### registry.c: capability comparison

From `registry.c`.  `struct wormhole_version_atom` holds an `unsigned int`
and a `char *` suffix that can be NULL; `struct wormhole_capability` holds the
name and the atom array (`version[version_len]`). -/

/-- One version atom, from `struct wormhole_version_atom` (registry.c:74). -/
structure VersionAtom where
  numeric : Nat
  string : Option Str
deriving DecidableEq

/-- A parsed capability, from `struct wormhole_capability` (registry.c:68):
the name plus the populated slice `version[0 .. version_len)`. -/
structure Capability where
  name : Str
  version : List VersionAtom
deriving DecidableEq

/-- registry.c:102 `WORMHOLE_VERSION_MISMATCH` -/
def WORMHOLE_VERSION_MISMATCH : Nat := 0
/-- registry.c:103 `WORMHOLE_VERSION_EQUAL` -/
def WORMHOLE_VERSION_EQUAL : Nat := 1
/-- registry.c:104 `WORMHOLE_VERSION_LESS_THAN` -/
def WORMHOLE_VERSION_LESS_THAN : Nat := 2
/-- registry.c:105 `WORMHOLE_VERSION_GREATER_THAN` -/
def WORMHOLE_VERSION_GREATER_THAN : Nat := 4

/-- C `strcmp` on the two suffix strings, as the sign of the first differing
byte; a proper prefix is smaller because its NUL terminator compares below
any character. -/
def strcmpOrd : Str → Str → Ordering
  | [], [] => .eq
  | [], _ :: _ => .lt
  | _ :: _, [] => .gt
  | a :: as, b :: bs =>
    if a.toNat < b.toNat then .lt
    else if b.toNat < a.toNat then .gt
    else strcmpOrd as bs

/-- The version-atom loop of `wormhole_capability_compare` (registry.c:133-176):
walk the common prefix of the two atom arrays; numeric parts decide first;
at equal numerics a NULL suffix beats a non-NULL one ("15 is greater than
15rc"), two non-NULL suffixes are strcmp'ed; after the common prefix the
longer array wins. -/
def compareAtoms : List VersionAtom → List VersionAtom → Nat
  | [], [] => WORMHOLE_VERSION_EQUAL
  | [], _ :: _ => WORMHOLE_VERSION_LESS_THAN
  | _ :: _, [] => WORMHOLE_VERSION_GREATER_THAN
  | a :: as, b :: bs =>
    if a.numeric < b.numeric then WORMHOLE_VERSION_LESS_THAN
    else if b.numeric < a.numeric then WORMHOLE_VERSION_GREATER_THAN
    else
      match a.string, b.string with
      | some _, none => WORMHOLE_VERSION_LESS_THAN
      | none, none => compareAtoms as bs
      | none, some _ => WORMHOLE_VERSION_GREATER_THAN
      | some sa, some sb =>
        match strcmpOrd sa sb with
        | .lt => WORMHOLE_VERSION_LESS_THAN
        | .gt => WORMHOLE_VERSION_GREATER_THAN
        | .eq => compareAtoms as bs

/-- `wormhole_capability_compare` (registry.c:125-177). -/
def wormhole_capability_compare (a b : Capability) : Nat :=
  if a.name = b.name then compareAtoms a.version b.version
  else WORMHOLE_VERSION_MISMATCH

/-- `wormhole_capability_is_greater_or_equal` (registry.c:179-189):
tests the EQUAL and GREATER_THAN bits of the comparison code. -/
def wormhole_capability_is_greater_or_equal (a b : Capability) : Bool :=
  (wormhole_capability_compare a b &&&
    (WORMHOLE_VERSION_EQUAL ||| WORMHOLE_VERSION_GREATER_THAN)) ≠ 0

/-! Helper lemmas about `strcmpOrd`. -/

/-- Characters with equal code points are equal. -/
theorem char_eq_of_toNat_eq {a b : Char} (h : a.toNat = b.toNat) : a = b :=
  Char.ext (UInt32.ext h)

theorem strcmpOrd_eq_iff : ∀ s t : Str, strcmpOrd s t = .eq ↔ s = t := by
  intro s
  induction s with
  | nil => intro t; cases t <;> simp [strcmpOrd]
  | cons a as ih =>
    intro t
    cases t with
    | nil => simp [strcmpOrd]
    | cons b bs =>
      simp only [strcmpOrd, List.cons.injEq]
      by_cases h1 : a.toNat < b.toNat
      · simp only [if_pos h1]
        constructor
        · intro h; exact absurd h (by decide)
        · rintro ⟨rfl, rfl⟩; omega
      · by_cases h2 : b.toNat < a.toNat
        · simp only [if_neg h1, if_pos h2]
          constructor
          · intro h; exact absurd h (by decide)
          · rintro ⟨rfl, rfl⟩; omega
        · have hab : a = b := char_eq_of_toNat_eq (by omega)
          simp [if_neg h1, if_neg h2, ih, hab]

theorem strcmpOrd_lt_iff_gt : ∀ s t : Str, strcmpOrd s t = .lt ↔ strcmpOrd t s = .gt := by
  intro s
  induction s with
  | nil => intro t; cases t <;> simp [strcmpOrd]
  | cons a as ih =>
    intro t
    cases t with
    | nil => simp [strcmpOrd]
    | cons b bs =>
      simp only [strcmpOrd]
      by_cases h1 : a.toNat < b.toNat
      · have h2 : ¬ b.toNat < a.toNat := by omega
        simp [if_pos h1, if_neg h2]
      · by_cases h2 : b.toNat < a.toNat
        · simp [if_neg h1, if_pos h2]
        · simp [if_neg h1, if_neg h2, ih]

theorem strcmpOrd_lt_trans :
    ∀ s t u : Str, strcmpOrd s t = .lt → strcmpOrd t u = .lt → strcmpOrd s u = .lt := by
  intro s
  induction s with
  | nil =>
    intro t u h1 h2
    cases t with
    | nil => exact h2
    | cons b bs =>
      cases u with
      | nil => simp [strcmpOrd] at h2
      | cons c cs => simp [strcmpOrd]
  | cons a as ih =>
    intro t u h1 h2
    cases t with
    | nil => simp [strcmpOrd] at h1
    | cons b bs =>
      cases u with
      | nil => simp [strcmpOrd] at h2
      | cons c cs =>
        simp only [strcmpOrd] at h1 h2 ⊢
        by_cases hab : a.toNat < b.toNat
        · by_cases hbc : b.toNat < c.toNat
          · have : a.toNat < c.toNat := by omega
            simp [this]
          · by_cases hcb : c.toNat < b.toNat
            · simp [if_neg hbc, if_pos hcb] at h2
            · have hbc' : b = c := char_eq_of_toNat_eq (by omega)
              subst hbc'
              simp [hab]
        · by_cases hba : b.toNat < a.toNat
          · simp [if_neg hab, if_pos hba] at h1
          · have hab' : a = b := char_eq_of_toNat_eq (by omega)
            subst hab'
            simp only [if_neg hab, if_neg hba] at h1
            by_cases hbc : a.toNat < c.toNat
            · simp [hbc]
            · by_cases hcb : c.toNat < a.toNat
              · simp [if_neg hbc, if_pos hcb] at h2
              · simp only [if_neg hbc, if_neg hcb] at h2 ⊢
                exact ih _ _ h1 h2

/-- The suffix-string comparison step of the loop: a NULL suffix is greater
than any non-NULL suffix; two non-NULL suffixes compare by `strcmp`. -/
def suffixCmp : Option Str → Option Str → Ordering
  | some _, none => .lt
  | none, none => .eq
  | none, some _ => .gt
  | some sa, some sb => strcmpOrd sa sb

/-- The decision the comparison loop takes at one atom pair, factored out of
`compareAtoms` for the proofs below. -/
def atomCmp (a b : VersionAtom) : Nat :=
  if a.numeric < b.numeric then WORMHOLE_VERSION_LESS_THAN
  else if b.numeric < a.numeric then WORMHOLE_VERSION_GREATER_THAN
  else
    match suffixCmp a.string b.string with
    | .lt => WORMHOLE_VERSION_LESS_THAN
    | .gt => WORMHOLE_VERSION_GREATER_THAN
    | .eq => WORMHOLE_VERSION_EQUAL

theorem suffixCmp_eq_iff : ∀ x y : Option Str, suffixCmp x y = .eq ↔ x = y := by
  intro x y
  match x, y with
  | some sa, none => simp [suffixCmp]
  | none, none => simp [suffixCmp]
  | none, some sb => simp [suffixCmp]
  | some sa, some sb => simp [suffixCmp, strcmpOrd_eq_iff]

theorem suffixCmp_lt_iff_gt : ∀ x y : Option Str, suffixCmp x y = .lt ↔ suffixCmp y x = .gt := by
  intro x y
  match x, y with
  | some sa, none => simp [suffixCmp]
  | none, none => simp [suffixCmp]
  | none, some sb => simp [suffixCmp]
  | some sa, some sb => simp [suffixCmp, strcmpOrd_lt_iff_gt]

theorem suffixCmp_lt_trans :
    ∀ x y z : Option Str, suffixCmp x y = .lt → suffixCmp y z = .lt → suffixCmp x z = .lt := by
  intro x y z h1 h2
  match x, y, z with
  | _, none, none => simp [suffixCmp] at h2
  | _, none, some sc => simp [suffixCmp] at h2
  | none, some sb, _ => simp [suffixCmp] at h1
  | some sa, some sb, none => simp [suffixCmp]
  | some sa, some sb, some sc =>
    simp only [suffixCmp] at h1 h2 ⊢
    exact strcmpOrd_lt_trans _ _ _ h1 h2

theorem compareAtoms_cons (a b : VersionAtom) (as bs : List VersionAtom) :
    compareAtoms (a :: as) (b :: bs) =
      if atomCmp a b = WORMHOLE_VERSION_EQUAL then compareAtoms as bs else atomCmp a b := by
  simp only [compareAtoms, atomCmp]
  by_cases h1 : a.numeric < b.numeric
  · simp [if_pos h1, WORMHOLE_VERSION_LESS_THAN, WORMHOLE_VERSION_EQUAL]
  · by_cases h2 : b.numeric < a.numeric
    · simp [if_neg h1, if_pos h2, WORMHOLE_VERSION_GREATER_THAN, WORMHOLE_VERSION_EQUAL]
    · simp only [if_neg h1, if_neg h2]
      match ha : a.string, hb : b.string with
      | some sa, none =>
        simp [suffixCmp, WORMHOLE_VERSION_LESS_THAN, WORMHOLE_VERSION_EQUAL]
      | none, none => simp [suffixCmp]
      | none, some sb =>
        simp [suffixCmp, WORMHOLE_VERSION_GREATER_THAN, WORMHOLE_VERSION_EQUAL]
      | some sa, some sb =>
        simp only [suffixCmp]
        match hc : strcmpOrd sa sb with
        | .lt => simp [WORMHOLE_VERSION_LESS_THAN, WORMHOLE_VERSION_EQUAL]
        | .gt => simp [WORMHOLE_VERSION_GREATER_THAN, WORMHOLE_VERSION_EQUAL]
        | .eq => simp

theorem atomCmp_eq_iff (a b : VersionAtom) :
    atomCmp a b = WORMHOLE_VERSION_EQUAL ↔ a = b := by
  obtain ⟨na, sa⟩ := a
  obtain ⟨nb, sb⟩ := b
  simp only [atomCmp, VersionAtom.mk.injEq]
  by_cases h1 : na < nb
  · simp only [if_pos h1]
    constructor
    · intro h; exact absurd h (by decide)
    · rintro ⟨rfl, _⟩; omega
  · by_cases h2 : nb < na
    · simp only [if_neg h1, if_pos h2]
      constructor
      · intro h; exact absurd h (by decide)
      · rintro ⟨rfl, _⟩; omega
    · have hn : na = nb := by omega
      subst hn
      simp only [if_neg h1, if_neg h2, true_and]
      match hc : suffixCmp sa sb with
      | .lt =>
        have hne : ¬ sa = sb := fun h => by
          rw [((suffixCmp_eq_iff sa sb).mpr h : suffixCmp sa sb = .eq)] at hc
          cases hc
        simp [hne, WORMHOLE_VERSION_LESS_THAN, WORMHOLE_VERSION_EQUAL]
      | .gt =>
        have hne : ¬ sa = sb := fun h => by
          rw [((suffixCmp_eq_iff sa sb).mpr h : suffixCmp sa sb = .eq)] at hc
          cases hc
        simp [hne, WORMHOLE_VERSION_GREATER_THAN, WORMHOLE_VERSION_EQUAL]
      | .eq =>
        have heq : sa = sb := (suffixCmp_eq_iff sa sb).mp hc
        simp [heq]

theorem atomCmp_lt_iff_gt (a b : VersionAtom) :
    atomCmp a b = WORMHOLE_VERSION_LESS_THAN ↔ atomCmp b a = WORMHOLE_VERSION_GREATER_THAN := by
  obtain ⟨na, sa⟩ := a
  obtain ⟨nb, sb⟩ := b
  simp only [atomCmp]
  by_cases h1 : na < nb
  · have h2 : ¬ nb < na := by omega
    simp [if_pos h1, if_neg h2, WORMHOLE_VERSION_LESS_THAN, WORMHOLE_VERSION_GREATER_THAN]
  · by_cases h2 : nb < na
    · simp [if_neg h1, if_pos h2, WORMHOLE_VERSION_LESS_THAN, WORMHOLE_VERSION_GREATER_THAN]
    · simp only [if_neg h1, if_neg h2]
      match hc : suffixCmp sa sb with
      | .lt =>
        have hgt : suffixCmp sb sa = .gt := (suffixCmp_lt_iff_gt sa sb).mp hc
        simp [hgt, WORMHOLE_VERSION_LESS_THAN, WORMHOLE_VERSION_GREATER_THAN]
      | .gt =>
        have hlt : suffixCmp sb sa = .lt := by
          rw [suffixCmp_lt_iff_gt]; exact hc
        simp [hlt, WORMHOLE_VERSION_LESS_THAN, WORMHOLE_VERSION_GREATER_THAN]
      | .eq =>
        have hsym : suffixCmp sb sa = .eq := by
          rw [suffixCmp_eq_iff] at hc ⊢
          exact hc.symm
        simp [hsym, WORMHOLE_VERSION_EQUAL, WORMHOLE_VERSION_LESS_THAN,
          WORMHOLE_VERSION_GREATER_THAN]

theorem atomCmp_total (a b : VersionAtom) :
    atomCmp a b = WORMHOLE_VERSION_EQUAL ∨ atomCmp a b = WORMHOLE_VERSION_LESS_THAN ∨
      atomCmp a b = WORMHOLE_VERSION_GREATER_THAN := by
  obtain ⟨na, sa⟩ := a
  obtain ⟨nb, sb⟩ := b
  simp only [atomCmp]
  by_cases h1 : na < nb
  · simp [if_pos h1]
  · by_cases h2 : nb < na
    · simp [if_neg h1, if_pos h2]
    · simp only [if_neg h1, if_neg h2]
      match hc : suffixCmp sa sb with
      | .lt => simp
      | .gt => simp
      | .eq => simp

theorem atomCmp_lt_trans (a b c : VersionAtom) :
    atomCmp a b = WORMHOLE_VERSION_LESS_THAN → atomCmp b c = WORMHOLE_VERSION_LESS_THAN →
      atomCmp a c = WORMHOLE_VERSION_LESS_THAN := by
  obtain ⟨na, sa⟩ := a
  obtain ⟨nb, sb⟩ := b
  obtain ⟨nc, sc⟩ := c
  simp only [atomCmp]
  intro h1 h2
  by_cases hab : na < nb
  · by_cases hbc : nb < nc
    · have hac : na < nc := by omega
      simp [hac]
    · by_cases hcb : nc < nb
      · simp only [if_neg hbc, if_pos hcb] at h2
        exact absurd h2 (by decide)
      · have heq : nb = nc := by omega
        subst heq
        simp [hab]
  · by_cases hba : nb < na
    · simp only [if_neg hab, if_pos hba] at h1
      exact absurd h1 (by decide)
    · have hn1 : na = nb := by omega
      subst hn1
      simp only [if_neg hab, if_neg hba] at h1
      by_cases hac : na < nc
      · simp [hac]
      · by_cases hca : nc < na
        · simp only [if_neg hac, if_pos hca] at h2
          exact absurd h2 (by decide)
        · simp only [if_neg hac, if_neg hca] at h2 ⊢
          match h3 : suffixCmp sa sb, h4 : suffixCmp sb sc with
          | .lt, .lt =>
            have h5 : suffixCmp sa sc = .lt := suffixCmp_lt_trans _ _ _ h3 h4
            simp [h5]
          | .lt, .gt =>
            rw [h4] at h2
            exact absurd h2 (by decide)
          | .lt, .eq =>
            have heq : sb = sc := (suffixCmp_eq_iff sb sc).mp h4
            subst heq
            simp [h3]
          | .gt, _ =>
            rw [h3] at h1
            exact absurd h1 (by decide)
          | .eq, .lt =>
            have heq : sa = sb := (suffixCmp_eq_iff sa sb).mp h3
            subst heq
            simp [h4]
          | .eq, .gt =>
            rw [h4] at h2
            exact absurd h2 (by decide)
          | .eq, .eq =>
            rw [h3] at h1
            exact absurd h1 (by decide)

theorem compareAtoms_total (u v : List VersionAtom) :
    compareAtoms u v = WORMHOLE_VERSION_EQUAL ∨ compareAtoms u v = WORMHOLE_VERSION_LESS_THAN ∨
      compareAtoms u v = WORMHOLE_VERSION_GREATER_THAN := by
  induction u generalizing v with
  | nil => cases v <;> simp [compareAtoms]
  | cons a as ih =>
    cases v with
    | nil => simp [compareAtoms]
    | cons b bs =>
      rw [compareAtoms_cons]
      rcases atomCmp_total a b with h | h | h
      · simp only [h, if_pos rfl]
        exact ih bs
      · simp [h, WORMHOLE_VERSION_EQUAL, WORMHOLE_VERSION_LESS_THAN]
      · simp [h, WORMHOLE_VERSION_EQUAL, WORMHOLE_VERSION_GREATER_THAN]

theorem compareAtoms_eq_iff (u v : List VersionAtom) :
    compareAtoms u v = WORMHOLE_VERSION_EQUAL ↔ u = v := by
  induction u generalizing v with
  | nil =>
    cases v <;> simp [compareAtoms, WORMHOLE_VERSION_EQUAL, WORMHOLE_VERSION_LESS_THAN]
  | cons a as ih =>
    cases v with
    | nil => simp [compareAtoms, WORMHOLE_VERSION_EQUAL, WORMHOLE_VERSION_GREATER_THAN]
    | cons b bs =>
      rw [compareAtoms_cons]
      by_cases h : atomCmp a b = WORMHOLE_VERSION_EQUAL
      · have hab : a = b := (atomCmp_eq_iff a b).mp h
        subst hab
        simp [if_pos h, ih, List.cons.injEq]
      · have hab : ¬ a = b := fun he => h ((atomCmp_eq_iff a b).mpr he)
        simp only [if_neg h, List.cons.injEq]
        constructor
        · intro he; exact absurd he h
        · rintro ⟨he, _⟩; exact absurd he hab

theorem compareAtoms_lt_iff_gt (u v : List VersionAtom) :
    compareAtoms u v = WORMHOLE_VERSION_LESS_THAN ↔
      compareAtoms v u = WORMHOLE_VERSION_GREATER_THAN := by
  induction u generalizing v with
  | nil =>
    cases v <;>
      simp [compareAtoms, WORMHOLE_VERSION_EQUAL, WORMHOLE_VERSION_LESS_THAN,
        WORMHOLE_VERSION_GREATER_THAN]
  | cons a as ih =>
    cases v with
    | nil =>
      simp [compareAtoms, WORMHOLE_VERSION_LESS_THAN, WORMHOLE_VERSION_GREATER_THAN]
    | cons b bs =>
      rw [compareAtoms_cons, compareAtoms_cons]
      rcases atomCmp_total a b with h | h | h
      · have hab : a = b := (atomCmp_eq_iff a b).mp h
        have hba : atomCmp b a = WORMHOLE_VERSION_EQUAL := (atomCmp_eq_iff b a).mpr hab.symm
        simp only [h, hba, if_pos rfl]
        exact ih bs
      · have hba : atomCmp b a = WORMHOLE_VERSION_GREATER_THAN := (atomCmp_lt_iff_gt a b).mp h
        simp [h, hba, WORMHOLE_VERSION_EQUAL, WORMHOLE_VERSION_LESS_THAN,
          WORMHOLE_VERSION_GREATER_THAN]
      · have hba : atomCmp b a = WORMHOLE_VERSION_LESS_THAN := (atomCmp_lt_iff_gt b a).mpr h
        simp [h, hba, WORMHOLE_VERSION_EQUAL, WORMHOLE_VERSION_LESS_THAN,
          WORMHOLE_VERSION_GREATER_THAN]

theorem compareAtoms_lt_trans (u v w : List VersionAtom) :
    compareAtoms u v = WORMHOLE_VERSION_LESS_THAN →
      compareAtoms v w = WORMHOLE_VERSION_LESS_THAN →
      compareAtoms u w = WORMHOLE_VERSION_LESS_THAN := by
  induction u generalizing v w with
  | nil =>
    intro h1 h2
    cases v with
    | nil => simp [compareAtoms, WORMHOLE_VERSION_EQUAL, WORMHOLE_VERSION_LESS_THAN] at h1
    | cons b bs =>
      cases w with
      | nil =>
        simp [compareAtoms, WORMHOLE_VERSION_GREATER_THAN, WORMHOLE_VERSION_LESS_THAN] at h2
      | cons c cs => simp [compareAtoms]
  | cons a as ih =>
    intro h1 h2
    cases v with
    | nil => simp [compareAtoms, WORMHOLE_VERSION_GREATER_THAN, WORMHOLE_VERSION_LESS_THAN] at h1
    | cons b bs =>
      cases w with
      | nil =>
        simp [compareAtoms, WORMHOLE_VERSION_GREATER_THAN, WORMHOLE_VERSION_LESS_THAN] at h2
      | cons c cs =>
        rw [compareAtoms_cons] at h1 h2 ⊢
        rcases atomCmp_total a b with hab | hab | hab
        · have he : a = b := (atomCmp_eq_iff a b).mp hab
          subst he
          rw [if_pos hab] at h1
          rcases atomCmp_total a c with hac | hac | hac
          · have he2 : a = c := (atomCmp_eq_iff a c).mp hac
            subst he2
            rw [if_pos hac] at h2 ⊢
            exact ih bs cs h1 h2
          · rw [if_neg (by simp [hac, WORMHOLE_VERSION_EQUAL, WORMHOLE_VERSION_LESS_THAN])]
            exact hac
          · rw [if_neg (by simp [hac, WORMHOLE_VERSION_EQUAL, WORMHOLE_VERSION_GREATER_THAN])] at h2
            rw [hac] at h2
            exact absurd h2 (by decide)
        · rcases atomCmp_total b c with hbc | hbc | hbc
          · have he : b = c := (atomCmp_eq_iff b c).mp hbc
            subst he
            rw [if_neg (by simp [hab, WORMHOLE_VERSION_EQUAL, WORMHOLE_VERSION_LESS_THAN])]
            exact hab
          · have hac : atomCmp a c = WORMHOLE_VERSION_LESS_THAN := atomCmp_lt_trans a b c hab hbc
            rw [if_neg (by simp [hac, WORMHOLE_VERSION_EQUAL, WORMHOLE_VERSION_LESS_THAN])]
            exact hac
          · rw [if_neg (by simp [hbc, WORMHOLE_VERSION_EQUAL, WORMHOLE_VERSION_GREATER_THAN])] at h2
            rw [hbc] at h2
            exact absurd h2 (by decide)
        · rw [if_neg (by simp [hab, WORMHOLE_VERSION_EQUAL, WORMHOLE_VERSION_GREATER_THAN])] at h1
          rw [hab] at h1
          exact absurd h1 (by decide)

/-- Two sample capabilities for the order witness: `python-3.8` and
`python-3.8rc` as parsed atoms. -/
def capPy38 : Capability := ⟨"python".toList, [⟨3, none⟩, ⟨8, none⟩]⟩

/-- `python-3.8rc`: same numeric prefix, suffix "rc" on the second atom. -/
def capPy38rc : Capability := ⟨"python".toList, [⟨3, none⟩, ⟨8, some "rc".toList⟩]⟩

/-- C4: for capabilities with equal names, `wormhole_capability_compare`
(registry.c:125-177) is a total order on the version atom lists: the result is
one of EQUAL / LESS_THAN / GREATER_THAN; EQUAL exactly on equal versions;
LESS_THAN of one direction is GREATER_THAN of the other (antisymmetry); strict
comparison is transitive; and atoms are decided left-to-right with numeric
parts first, a missing suffix beating any present suffix at equal numerics
(so 15 > 15rc), and two present suffixes ordered by `strcmp`. -/
theorem wormhole_capability_compare_total_order :
    (∀ a b : Capability, a.name = b.name →
      (wormhole_capability_compare a b = WORMHOLE_VERSION_EQUAL ∨
       wormhole_capability_compare a b = WORMHOLE_VERSION_LESS_THAN ∨
       wormhole_capability_compare a b = WORMHOLE_VERSION_GREATER_THAN))
    ∧ (∀ a b : Capability, a.name = b.name →
      (wormhole_capability_compare a b = WORMHOLE_VERSION_EQUAL ↔ a.version = b.version))
    ∧ (∀ a b : Capability, a.name = b.name →
      (wormhole_capability_compare a b = WORMHOLE_VERSION_LESS_THAN ↔
       wormhole_capability_compare b a = WORMHOLE_VERSION_GREATER_THAN))
    ∧ (∀ a b c : Capability, a.name = b.name → b.name = c.name →
      wormhole_capability_compare a b = WORMHOLE_VERSION_LESS_THAN →
      wormhole_capability_compare b c = WORMHOLE_VERSION_LESS_THAN →
      wormhole_capability_compare a c = WORMHOLE_VERSION_LESS_THAN)
    ∧ (∀ (n : Nat) (s : Str) (ra rb : List VersionAtom),
      compareAtoms (⟨n, none⟩ :: ra) (⟨n, some s⟩ :: rb) = WORMHOLE_VERSION_GREATER_THAN)
    ∧ (∀ (n : Nat) (sa sb : Str) (ra rb : List VersionAtom), strcmpOrd sa sb = .lt →
      compareAtoms (⟨n, some sa⟩ :: ra) (⟨n, some sb⟩ :: rb) = WORMHOLE_VERSION_LESS_THAN)
    ∧ (∀ (x y : VersionAtom) (ra rb : List VersionAtom), x.numeric < y.numeric →
      compareAtoms (x :: ra) (y :: rb) = WORMHOLE_VERSION_LESS_THAN) := by
  refine ⟨?_, ?_, ?_, ?_, ?_, ?_, ?_⟩
  · intro a b h
    simp only [wormhole_capability_compare, if_pos h]
    exact compareAtoms_total a.version b.version
  · intro a b h
    simp only [wormhole_capability_compare, if_pos h]
    exact compareAtoms_eq_iff a.version b.version
  · intro a b h
    simp only [wormhole_capability_compare, if_pos h, if_pos h.symm]
    exact compareAtoms_lt_iff_gt a.version b.version
  · intro a b c hab hbc
    simp only [wormhole_capability_compare, if_pos hab, if_pos hbc, if_pos (hab.trans hbc)]
    exact compareAtoms_lt_trans a.version b.version c.version
  · intro n s ra rb
    rw [compareAtoms_cons]
    have h : atomCmp ⟨n, none⟩ ⟨n, some s⟩ = WORMHOLE_VERSION_GREATER_THAN := by
      simp [atomCmp, suffixCmp]
    simp [h, WORMHOLE_VERSION_EQUAL, WORMHOLE_VERSION_GREATER_THAN]
  · intro n sa sb ra rb hlt
    rw [compareAtoms_cons]
    have h : atomCmp ⟨n, some sa⟩ ⟨n, some sb⟩ = WORMHOLE_VERSION_LESS_THAN := by
      simp [atomCmp, suffixCmp, hlt]
    simp [h, WORMHOLE_VERSION_EQUAL, WORMHOLE_VERSION_LESS_THAN]
  · intro x y ra rb hlt
    rw [compareAtoms_cons]
    have h : atomCmp x y = WORMHOLE_VERSION_LESS_THAN := by
      simp [atomCmp, if_pos hlt]
    simp [h, WORMHOLE_VERSION_EQUAL, WORMHOLE_VERSION_LESS_THAN]

/-- Witness for C4 at concrete capabilities: `python-3.8rc` compares below
`python-3.8` and antisymmetry flips the direction. -/
theorem wormhole_capability_compare_total_order_witness :
    wormhole_capability_compare capPy38 capPy38rc = WORMHOLE_VERSION_GREATER_THAN :=
  (wormhole_capability_compare_total_order.2.2.1 capPy38rc capPy38 rfl).mp (by decide)

/-! ### return.c: the path-state tree

`struct wormhole_path_state_node` (return.c:117) carries a name, a
disposition (`wormhole_path_state_t`) and intrusive child/sibling pointers.
Here a node owns its list of children directly; the sibling order of the list
is the C sibling order (new children are pushed to the front, return.c:165-170).
The root node's NULL name is irrelevant to every operation modelled here and
is rendered as "". The `user_data` pointer is not carried: no claim below
depends on it. -/

/-- environment.h:54 `WORMHOLE_PATH_STATE_UNCHANGED` -/
def WORMHOLE_PATH_STATE_UNCHANGED : Nat := 0
/-- environment.h:55 `WORMHOLE_PATH_STATE_IGNORED` -/
def WORMHOLE_PATH_STATE_IGNORED : Nat := 1
/-- environment.h:56 `WORMHOLE_PATH_STATE_SYSTEM_MOUNT` -/
def WORMHOLE_PATH_STATE_SYSTEM_MOUNT : Nat := 2
/-- environment.h:57 `WORMHOLE_PATH_STATE_BIND_MOUNTED` -/
def WORMHOLE_PATH_STATE_BIND_MOUNTED : Nat := 3
/-- environment.h:58 `WORMHOLE_PATH_STATE_OVERLAY_MOUNTED` -/
def WORMHOLE_PATH_STATE_OVERLAY_MOUNTED : Nat := 4
/-- environment.h:59 `WORMHOLE_PATH_STATE_FAKE_OVERLAY_MOUNTED` -/
def WORMHOLE_PATH_STATE_FAKE_OVERLAY_MOUNTED : Nat := 5

/-- `wormhole_path_state_t` (environment.h:66): the disposition code plus the
union payload; the overlay branch holds a possibly-NULL `upperdir`, the
system-mount branch a type and device. -/
structure WPathState where
  state : Nat := 0
  upperdir : Option String := none
  mountType : Option String := none
  mountDevice : Option String := none
deriving DecidableEq

/-- A path-state tree node (return.c:117-126). -/
inductive WNode where
  | mk : String → WPathState → List WNode → WNode

def WNode.name : WNode → String
  | .mk n _ _ => n

def WNode.pstate : WNode → WPathState
  | .mk _ s _ => s

def WNode.children : WNode → List WNode
  | .mk _ _ c => c

/-- The fresh tree of `wormhole_tree_state_new` (return.c:316-324): a root
with NULL name, calloc'ed (all-zero, hence Unchanged) state, no children. -/
def freshTree : WNode := .mk "" {} []

/-- Accumulating splitter: collect maximal runs of non-'/' characters. -/
def splitCompsAux : List Char → List Char → List String
  | acc, [] => if acc.isEmpty then [] else [⟨acc.reverse⟩]
  | acc, c :: rest =>
    if c = '/' then
      if acc.isEmpty then splitCompsAux [] rest
      else ⟨acc.reverse⟩ :: splitCompsAux [] rest
    else splitCompsAux (c :: acc) rest

/-- The component split performed by `wormhole_path_state_node_lookup`
(return.c:287-293): skip leading slashes, then `strtok` on "/", which
swallows repeated and trailing separators; the components are the maximal
nonempty runs between slashes. -/
def splitPath (p : String) : List String := splitCompsAux [] p.data

/-- The rendering of a component list performed by
`wormhole_path_state_node_to_path` (return.c:261-279): each name is prepended
with a '/' walking up to the root; an empty result stands for the root and
prints as "/". -/
def canonicalPath (comps : List String) : String :=
  if comps.isEmpty then "/" else ⟨comps.flatMap (fun c => '/' :: c.data)⟩

/-- The child scan of the lookup loop (return.c:297-300): first child whose
name equals the component. -/
def findChild (cs : List WNode) (nm : String) : Option WNode :=
  cs.find? (fun ch => ch.name = nm)

/-- `wormhole_path_state_node_lookup` with `create = false`
(return.c:281-314): descend matching components; a missing child aborts
with NULL. -/
def findNode : WNode → List String → Option WNode
  | n, [] => some n
  | n, c :: rest =>
    match findChild n.children c with
    | none => none
    | some ch => findNode ch rest

/-- The same descent, recording the names of the nodes entered; the recorded
list is what `wormhole_path_state_node_to_path` (return.c:261-279) would
print for the returned node, root-to-node. -/
def findNodeTrace : WNode → List String → List String → Option (WNode × List String)
  | n, [], acc => some (n, acc)
  | n, c :: rest, acc =>
    match findChild n.children c with
    | none => none
    | some ch => findNodeTrace ch rest (acc ++ [ch.name])

/-- Replace the first child satisfying the predicate (the lookup loop stops
at the first name match, return.c:297-300). -/
def updateFirst (p : WNode → Bool) (f : WNode → WNode) : List WNode → List WNode
  | [] => []
  | x :: xs => if p x then f x :: xs else x :: updateFirst p f xs

/-- The chain of fresh nodes `wormhole_path_state_node_new` builds when
`create = true` runs past the last existing node: each new node gets a
calloc'ed (Unchanged) state; the final node's state is transformed by `f`. -/
def buildChain (f : WPathState → WPathState) : String → List String → WNode
  | c, [] => .mk c (f {}) []
  | c, r :: rest => .mk c {} [buildChain f r rest]

/-- `wormhole_path_state_node_lookup` with `create = true` followed by an
update `f` of the found node's state: the pattern of
`__wormhole_tree_state_set` (return.c:358-370).  Missing children are
created (pushed at the front of the sibling list, return.c:165-170); with
`f = id` this is exactly the `create = true` lookup's effect on the tree. -/
def modifyAt : WNode → List String → (WPathState → WPathState) → WNode
  | .mk nm st cs, [], f => .mk nm (f st) cs
  | .mk nm st cs, c :: rest, f =>
    match findChild cs c with
    | some _ => .mk nm st (updateFirst (fun ch => ch.name = c) (fun ch => modifyAt ch rest f) cs)
    | none => .mk nm st (buildChain f c rest :: cs)

/-- The `create = true` lookup's effect on the tree (state untouched). -/
def ensurePath (t : WNode) (comps : List String) : WNode :=
  modifyAt t comps id

/-- `wormhole_path_state_clear` (return.c:141-153): drop the payload that
belongs to the node's current disposition. -/
def clearPathState (s : WPathState) : WPathState :=
  if s.state = WORMHOLE_PATH_STATE_OVERLAY_MOUNTED ∨
      s.state = WORMHOLE_PATH_STATE_FAKE_OVERLAY_MOUNTED then
    { s with upperdir := none }
  else if s.state = WORMHOLE_PATH_STATE_SYSTEM_MOUNT then
    { s with mountType := none, mountDevice := none }
  else s

/-- `__wormhole_tree_state_set` (return.c:358-370): create-lookup, clear the
old payload, install the new disposition code. -/
def wormholeTreeStateSet (t : WNode) (path : String) (newState : Nat) : WNode :=
  modifyAt t (splitPath path)
    (fun s => let s0 := clearPathState s
              { s0 with state := newState })

/-- `wormhole_tree_state_set_overlay_mounted` (return.c:396-404): set the
OVERLAY_MOUNTED disposition at `path` and store `upperdir` (which may be
NULL, cf. pathinfo_create_overlay). -/
def wormhole_tree_state_set_overlay_mounted (t : WNode) (path : String)
    (upper : Option String) : WNode :=
  modifyAt t (splitPath path)
    (fun s => let s0 := clearPathState s
              { s0 with state := WORMHOLE_PATH_STATE_OVERLAY_MOUNTED, upperdir := upper })

/-- `wormhole_tree_state_set_bind_mounted` (return.c:389-394). -/
def wormhole_tree_state_set_bind_mounted (t : WNode) (path : String) : WNode :=
  wormholeTreeStateSet t path WORMHOLE_PATH_STATE_BIND_MOUNTED

/-- `wormhole_tree_state_set_system_mount` (return.c:379-387). -/
def wormhole_tree_state_set_system_mount (t : WNode) (path : String)
    (mtype mdevice : Option String) : WNode :=
  modifyAt t (splitPath path)
    (fun s => let s0 := clearPathState s
              { s0 with state := WORMHOLE_PATH_STATE_SYSTEM_MOUNT,
                        mountType := mtype, mountDevice := mdevice })

/-- `wormhole_path_tree_get` (return.c:346-356): non-creating lookup of the
state. -/
def wormhole_path_tree_get (t : WNode) (path : String) : Option WPathState :=
  (findNode t (splitPath path)).map WNode.pstate

/-! ### return.c: the walk iterator

`wormhole_tree_walk` (return.c:481-493) starts a cursor at the root;
`wormhole_tree_walk_next` (return.c:541-565) advances it with
`__traverse_down` (return.c:520-539), which steps into the first child
(unless `skip_children` was requested), otherwise to the next sibling or up
(`__traverse_right`, return.c:502-518), and keeps stepping until it lands on
a node whose `state.state > 0`.  The C cursor is a node pointer whose
siblings and parent are reached through intrusive links; here the cursor is
the node plus an explicit stack holding, per ancestor level, the
not-yet-visited right siblings and the parent's path. -/

mutual

/-- Size of a node (for the traversal measure). -/
def wsize : WNode → Nat
  | .mk _ _ cs => 1 + wsizeForest cs

/-- Size of a forest. -/
def wsizeForest : List WNode → Nat
  | [] => 0
  | n :: ns => wsize n + wsizeForest ns

end

theorem wsize_pos (n : WNode) : 0 < wsize n := by
  obtain ⟨nm, st, cs⟩ := n
  simp [wsize]

/-- Walker stack: per ancestor level, the remaining right siblings and the
path of their parent. -/
abbrev WalkCtx := List (List WNode × List String)

/-- Total size of the nodes still reachable through the stack. -/
def ctxSize (ctx : WalkCtx) : Nat :=
  (ctx.map (fun lvl => wsizeForest lvl.1)).sum

/-- `__traverse_right` (return.c:502-518): next sibling if there is one,
else climb until an ancestor has one; NULL past the root. -/
def traverseRight : WalkCtx → Option (WNode × List String × WalkCtx)
  | [] => none
  | (sibs, ppath) :: up =>
    match sibs with
    | [] => traverseRight up
    | m :: rest => some (m, ppath ++ [m.name], (rest, ppath) :: up)

/-- One movement step of `__traverse_down` (return.c:524-529): into the first
child when there is one and `skip` is not set, else `__traverse_right`. -/
def moveNext (n : WNode) (path : List String) (ctx : WalkCtx) (skip : Bool) :
    Option (WNode × List String × WalkCtx) :=
  match n.children with
  | c :: cs => if skip then traverseRight ctx else some (c, path ++ [c.name], (cs, path) :: ctx)
  | [] => traverseRight ctx

theorem ctxSize_cons (sibs : List WNode) (pp : List String) (up : WalkCtx) :
    ctxSize ((sibs, pp) :: up) = wsizeForest sibs + ctxSize up := by
  simp [ctxSize]

theorem traverseRight_measure :
    ∀ (ctx : WalkCtx) m mp ctx', traverseRight ctx = some (m, mp, ctx') →
      wsize m + ctxSize ctx' ≤ ctxSize ctx := by
  intro ctx
  induction ctx with
  | nil => intro m mp ctx' h; simp [traverseRight] at h
  | cons lvl up ih =>
    intro m mp ctx' h
    obtain ⟨sibs, ppath⟩ := lvl
    match sibs with
    | [] =>
      simp only [traverseRight] at h
      have := ih m mp ctx' h
      rw [ctxSize_cons]
      simp only [wsizeForest]
      omega
    | x :: rest =>
      simp only [traverseRight, Option.some.injEq, Prod.mk.injEq] at h
      obtain ⟨rfl, _, rfl⟩ := h
      rw [ctxSize_cons, ctxSize_cons]
      simp only [wsizeForest]
      omega

theorem moveNext_measure {n : WNode} {path : List String} {ctx : WalkCtx} {skip : Bool}
    {m mp ctx'} (h : moveNext n path ctx skip = some (m, mp, ctx')) :
    wsize m + ctxSize ctx' < wsize n + ctxSize ctx := by
  obtain ⟨nm, st, cs⟩ := n
  have hpos : 0 < wsize (WNode.mk nm st cs) := wsize_pos _
  match cs, skip with
  | c :: rest, false =>
    simp only [moveNext, WNode.children, if_neg (by decide : ¬ (false = true)),
      Option.some.injEq, Prod.mk.injEq] at h
    obtain ⟨rfl, _, rfl⟩ := h
    rw [ctxSize_cons]
    simp only [wsize, wsizeForest]
    omega
  | c :: rest, true =>
    simp only [moveNext, WNode.children, if_pos rfl] at h
    have := traverseRight_measure ctx m mp ctx' h
    omega
  | [], sk =>
    simp only [moveNext, WNode.children] at h
    have := traverseRight_measure ctx m mp ctx' h
    omega

/-- The scan loop of `__traverse_down` (return.c:524-536): keep stepping until
a node with a non-zero disposition comes up; the skip request applies to the
first step only (`skip_children = false;` at the loop's foot). -/
def walkNextLoop (n : WNode) (path : List String) (ctx : WalkCtx) (skip : Bool) :
    Option (WNode × List String × WalkCtx) :=
  match h : moveNext n path ctx skip with
  | none => none
  | some (m, mp, ctx') =>
    if 0 < m.pstate.state then some (m, mp, ctx')
    else walkNextLoop m mp ctx' false
termination_by wsize n + ctxSize ctx
decreasing_by
  exact moveNext_measure h

theorem walkNextLoop_measure :
    ∀ (N : Nat) (n : WNode) (path : List String) (ctx : WalkCtx) (skip : Bool) m mp ctx',
      wsize n + ctxSize ctx ≤ N →
      walkNextLoop n path ctx skip = some (m, mp, ctx') →
      wsize m + ctxSize ctx' < wsize n + ctxSize ctx := by
  intro N
  induction N with
  | zero =>
    intro n path ctx skip m mp ctx' hle h
    have := wsize_pos n
    omega
  | succ N ih =>
    intro n path ctx skip m mp ctx' hle h
    rw [walkNextLoop.eq_def] at h
    split at h
    · exact absurd h (by simp)
    · next m1 mp1 ctx1 heq =>
      have hlt := moveNext_measure heq
      split at h
      · simp only [Option.some.injEq, Prod.mk.injEq] at h
        obtain ⟨rfl, _, rfl⟩ := h
        omega
      · have := ih m1 mp1 ctx1 false m mp ctx' (by omega) h
        omega

/-- `wormhole_tree_walk` followed by repeated `wormhole_tree_walk_next`
without any `skip_children` request: the (path, state) pairs the iterator
yields, starting at the root with an empty stack. -/
def walkYieldsFrom (n : WNode) (path : List String) (ctx : WalkCtx) :
    List (List String × WPathState) :=
  match h : walkNextLoop n path ctx false with
  | none => []
  | some (m, mp, ctx') => (mp, m.pstate) :: walkYieldsFrom m mp ctx'
termination_by wsize n + ctxSize ctx
decreasing_by
  exact walkNextLoop_measure (wsize n + ctxSize ctx) n path ctx false m mp ctx' le_rfl h

/-- The complete yield list of one walk over a tree. -/
def wormhole_tree_walk_yields (t : WNode) : List (List String × WPathState) :=
  walkYieldsFrom t [] []

/-- Reference order: the pre-order listing of a forest, with the path of each
node (parent path extended by the node's name). -/
def preForest : List String → List WNode → List (List String × WPathState)
  | _, [] => []
  | pp, .mk nm st cs :: rest =>
    (pp ++ [nm], st) :: (preForest (pp ++ [nm]) cs ++ preForest pp rest)
termination_by _ ns => wsizeForest ns
decreasing_by
  · simp only [wsizeForest, wsize]
    omega
  · simp only [wsizeForest, wsize]
    omega

/-- The nodes a walker stack still has to visit. -/
def ctxFuture (ctx : WalkCtx) : List (List String × WPathState) :=
  (ctx.map (fun lvl => preForest lvl.2 lvl.1)).flatten

/-- All nodes a walker position will still visit: the descendants of the
current node, then everything on the stack. -/
def future (n : WNode) (path : List String) (ctx : WalkCtx) :
    List (List String × WPathState) :=
  preForest path n.children ++ ctxFuture ctx

/-- The test of `__traverse_down` (return.c:532): `state.state > 0`, i.e. the
disposition differs from `WORMHOLE_PATH_STATE_UNCHANGED`. -/
def changedP (pr : List String × WPathState) : Bool := decide (0 < pr.2.state)

theorem ctxFuture_nil : ctxFuture [] = [] := rfl

theorem ctxFuture_cons (sibs : List WNode) (pp : List String) (up : WalkCtx) :
    ctxFuture ((sibs, pp) :: up) = preForest pp sibs ++ ctxFuture up := by
  simp [ctxFuture]

theorem traverseRight_future_none :
    ∀ (ctx : WalkCtx), traverseRight ctx = none → ctxFuture ctx = [] := by
  intro ctx
  induction ctx with
  | nil => intro _; rfl
  | cons lvl up ih =>
    intro h
    obtain ⟨sibs, pp⟩ := lvl
    match sibs with
    | [] =>
      simp only [traverseRight] at h
      rw [ctxFuture_cons, ih h]
      simp [preForest]
    | x :: rest => simp [traverseRight] at h

theorem traverseRight_future_some :
    ∀ (ctx : WalkCtx) m mp ctx', traverseRight ctx = some (m, mp, ctx') →
      ctxFuture ctx = (mp, m.pstate) :: future m mp ctx' := by
  intro ctx
  induction ctx with
  | nil => intro m mp ctx' h; simp [traverseRight] at h
  | cons lvl up ih =>
    intro m mp ctx' h
    obtain ⟨sibs, pp⟩ := lvl
    match sibs with
    | [] =>
      simp only [traverseRight] at h
      rw [ctxFuture_cons, ih m mp ctx' h]
      simp [preForest]
    | x :: rest =>
      simp only [traverseRight, Option.some.injEq, Prod.mk.injEq] at h
      obtain ⟨rfl, rfl, rfl⟩ := h
      obtain ⟨nm, st, cs⟩ := x
      rw [ctxFuture_cons]
      simp only [preForest, future, WNode.children, WNode.pstate, WNode.name,
        ctxFuture_cons, List.append_assoc, List.cons_append]

theorem moveNext_future_none (n : WNode) (path : List String) (ctx : WalkCtx)
    (h : moveNext n path ctx false = none) : future n path ctx = [] := by
  obtain ⟨nm, st, cs⟩ := n
  match cs with
  | [] =>
    simp only [moveNext, WNode.children] at h
    simp only [future, WNode.children, preForest, List.nil_append]
    exact traverseRight_future_none ctx h
  | c :: rest => simp [moveNext, WNode.children] at h

theorem moveNext_future_some (n : WNode) (path : List String) (ctx : WalkCtx)
    {m mp ctx'} (h : moveNext n path ctx false = some (m, mp, ctx')) :
    future n path ctx = (mp, m.pstate) :: future m mp ctx' := by
  obtain ⟨nm, st, cs⟩ := n
  match cs with
  | [] =>
    simp only [moveNext, WNode.children] at h
    simp only [future, WNode.children, preForest, List.nil_append]
    exact traverseRight_future_some ctx m mp ctx' h
  | c :: rest =>
    simp only [moveNext, WNode.children, if_neg (by decide : ¬ (false = true)),
      Option.some.injEq, Prod.mk.injEq] at h
    obtain ⟨rfl, rfl, rfl⟩ := h
    obtain ⟨cn, cst, ccs⟩ := c
    simp only [future, WNode.children, WNode.pstate, WNode.name, preForest,
      ctxFuture_cons, List.append_assoc, List.cons_append]

theorem walkNextLoop_future :
    ∀ (N : Nat) (n : WNode) (path : List String) (ctx : WalkCtx),
      wsize n + ctxSize ctx ≤ N →
      ((walkNextLoop n path ctx false = none →
        (future n path ctx).filter changedP = []) ∧
       (∀ m mp ctx', walkNextLoop n path ctx false = some (m, mp, ctx') →
        0 < m.pstate.state ∧
        (future n path ctx).filter changedP =
          (mp, m.pstate) :: (future m mp ctx').filter changedP)) := by
  intro N
  induction N with
  | zero =>
    intro n path ctx hle
    have := wsize_pos n
    omega
  | succ N ih =>
    intro n path ctx hle
    constructor
    · intro h
      rw [walkNextLoop.eq_def] at h
      split at h
      · next heq =>
        rw [moveNext_future_none n path ctx heq]
        rfl
      · next m1 mp1 ctx1 heq =>
        have hlt := moveNext_measure heq
        split at h
        · exact absurd h (by simp)
        · next hst =>
          rw [moveNext_future_some n path ctx heq]
          have h0 : m1.pstate.state = 0 := by omega
          have hrec := (ih m1 mp1 ctx1 (by omega)).1 h
          rw [List.filter_cons]
          simp [changedP, h0, hrec]
    · intro m mp ctx' h
      rw [walkNextLoop.eq_def] at h
      split at h
      · exact absurd h (by simp)
      · next m1 mp1 ctx1 heq =>
        have hlt := moveNext_measure heq
        split at h
        · next hst =>
          simp only [Option.some.injEq, Prod.mk.injEq] at h
          obtain ⟨rfl, rfl, rfl⟩ := h
          refine ⟨hst, ?_⟩
          rw [moveNext_future_some n path ctx heq]
          rw [List.filter_cons]
          simp [changedP, hst]
        · next hst =>
          have h0 : m1.pstate.state = 0 := by omega
          have hrec := (ih m1 mp1 ctx1 (by omega)).2 m mp ctx' h
          refine ⟨hrec.1, ?_⟩
          rw [moveNext_future_some n path ctx heq]
          rw [List.filter_cons]
          simp only [changedP, h0]
          simpa [changedP] using hrec.2

theorem walkYieldsFrom_eq :
    ∀ (N : Nat) (n : WNode) (path : List String) (ctx : WalkCtx),
      wsize n + ctxSize ctx ≤ N →
      walkYieldsFrom n path ctx = (future n path ctx).filter changedP := by
  intro N
  induction N with
  | zero =>
    intro n path ctx hle
    have := wsize_pos n
    omega
  | succ N ih =>
    intro n path ctx hle
    rw [walkYieldsFrom.eq_def]
    split
    · next h =>
      exact ((walkNextLoop_future (N+1) n path ctx hle).1 h).symm
    · next m mp ctx' h =>
      have hm := (walkNextLoop_future (N+1) n path ctx hle).2 m mp ctx' h
      have hlt := walkNextLoop_measure (N+1) n path ctx false m mp ctx' hle h
      rw [hm.2, ih m mp ctx' (by omega)]

/-- The walk visits exactly the strict descendants of the root, in pre-order,
keeping those whose disposition is non-zero. -/
theorem wormhole_tree_walk_yields_eq (t : WNode) :
    wormhole_tree_walk_yields t = (preForest [] t.children).filter changedP := by
  have h := walkYieldsFrom_eq (wsize t + ctxSize []) t [] [] le_rfl
  rw [wormhole_tree_walk_yields, h]
  simp [future, ctxFuture_nil]

theorem preForest_path_ne_nil :
    ∀ (N : Nat) (pp : List String) (ns : List WNode), wsizeForest ns ≤ N →
      ∀ pr ∈ preForest pp ns, pr.1 ≠ [] := by
  intro N
  induction N with
  | zero =>
    intro pp ns hle pr hmem
    match ns with
    | [] => simp [preForest] at hmem
    | n :: rest =>
      have := wsize_pos n
      simp only [wsizeForest] at hle
      omega
  | succ N ih =>
    intro pp ns hle pr hmem
    match ns with
    | [] => simp [preForest] at hmem
    | .mk nm st cs :: rest =>
      simp only [preForest, List.mem_cons, List.mem_append] at hmem
      simp only [wsizeForest, wsize] at hle
      rcases hmem with rfl | hmem | hmem
      · simp
      · exact ih (pp ++ [nm]) cs (by omega) pr hmem
      · exact ih pp rest (by omega) pr hmem

/-- C6: the walk iterator of return.c yields exactly the strict descendants
of the root whose disposition differs from `WORMHOLE_PATH_STATE_UNCHANGED`,
in pre-order: Unchanged nodes are never yielded, yet the traversal descends
through Unchanged interior nodes, so every changed node below them appears. -/
theorem wormhole_tree_walk_skips_unchanged (t : WNode) :
    wormhole_tree_walk_yields t = (preForest [] t.children).filter changedP ∧
    (wormhole_tree_walk_yields t).all
      (fun pr => pr.2.state != WORMHOLE_PATH_STATE_UNCHANGED) = true := by
  refine ⟨wormhole_tree_walk_yields_eq t, ?_⟩
  rw [wormhole_tree_walk_yields_eq t, List.all_eq_true]
  intro pr hpr
  have := List.of_mem_filter hpr
  simp only [changedP, decide_eq_true_eq] at this
  simp only [bne_iff_ne, ne_eq, WORMHOLE_PATH_STATE_UNCHANGED]
  omega

/-- `wormhole_get_mount_state` (mntent.c:31-55): one SystemMount record per
mount-table entry (mnt_dir, mnt_type, mnt_fsname); the first entry of
/proc/mounts is the root filesystem at "/". -/
def wormhole_get_mount_state (entries : List (String × String × String)) : WNode :=
  entries.foldl
    (fun t e => wormhole_tree_state_set_system_mount t e.1 (some e.2.1) (some e.2.2))
    freshTree

/-- C10: the walk never yields the root node.  Every yielded path is
non-empty (the root's reconstructed path "/" is the empty component list),
and recording a disposition at "/" - as the mount-table reader does for the
root filesystem entry - does not change what the walk yields. -/
theorem wormhole_tree_walk_never_yields_root :
    (∀ t : WNode,
      (wormhole_tree_walk_yields t).all (fun pr => !pr.1.isEmpty) = true) ∧
    (∀ (t : WNode) (ty dev : Option String),
      wormhole_tree_walk_yields (wormhole_tree_state_set_system_mount t "/" ty dev) =
        wormhole_tree_walk_yields t) := by
  constructor
  · intro t
    rw [wormhole_tree_walk_yields_eq t, List.all_eq_true]
    intro pr hpr
    have hmem := List.mem_of_mem_filter hpr
    have hne := preForest_path_ne_nil (wsizeForest t.children) [] t.children le_rfl pr hmem
    simp [List.isEmpty_iff, hne]
  · intro t ty dev
    obtain ⟨nm, st, cs⟩ := t
    rw [wormhole_tree_walk_yields_eq, wormhole_tree_walk_yields_eq]
    have hsplit : splitPath "/" = [] := rfl
    simp [wormhole_tree_state_set_system_mount, hsplit, modifyAt, WNode.children]

/-! ### C7: lookup lemmas -/

theorem modifyAt_name (n : WNode) (comps : List String) (f : WPathState → WPathState) :
    (modifyAt n comps f).name = n.name := by
  obtain ⟨nm, st, cs⟩ := n
  match comps with
  | [] => rfl
  | c :: rest =>
    simp only [modifyAt]
    match findChild cs c with
    | some _ => rfl
    | none => rfl

theorem buildChain_name (f : WPathState → WPathState) (c : String) (rest : List String) :
    (buildChain f c rest).name = c := by
  match rest with
  | [] => rfl
  | r :: rest' => rfl

theorem findChild_cons (x : WNode) (xs : List WNode) (c : String) :
    findChild (x :: xs) c = if x.name = c then some x else findChild xs c := by
  by_cases hx : x.name = c
  · simp [findChild, List.find?, hx]
  · simp [findChild, List.find?, hx]

theorem findChild_updateFirst_same (cs : List WNode) (d : String) (g : WNode → WNode)
    (hg : ∀ ch, (g ch).name = ch.name) :
    findChild (updateFirst (fun x => x.name = d) g cs) d = (findChild cs d).map g := by
  induction cs with
  | nil => rfl
  | cons x xs ih =>
    by_cases hx : x.name = d
    · simp [updateFirst, findChild_cons, hx, hg x]
    · simp [updateFirst, findChild_cons, hx, ih]

theorem findChild_updateFirst_other (cs : List WNode) (c d : String) (g : WNode → WNode)
    (hg : ∀ ch, (g ch).name = ch.name) (hne : c ≠ d) :
    findChild (updateFirst (fun x => x.name = d) g cs) c = findChild cs c := by
  induction cs with
  | nil => rfl
  | cons x xs ih =>
    by_cases hx : x.name = d
    · simp [updateFirst, findChild_cons, hx, hg x, Ne.symm hne]
    · by_cases hxc : x.name = c
      · simp [updateFirst, findChild_cons, hx, hxc, hne]
      · simp [updateFirst, findChild_cons, hx, hxc, ih]

theorem findChild_name {cs : List WNode} {c : String} {ch : WNode}
    (h : findChild cs c = some ch) : ch.name = c := by
  have := List.find?_some h
  simpa using this

theorem findNodeTrace_buildChain :
    ∀ (rest : List String) (c : String) (f : WPathState → WPathState) (acc : List String),
      ((findNodeTrace (buildChain f c rest) rest acc).map Prod.snd) = some (acc ++ rest) := by
  intro rest
  induction rest with
  | nil => intro c f acc; simp [buildChain, findNodeTrace]
  | cons r rest' ih =>
    intro c f acc
    have h1 : findChild [buildChain f r rest'] r = some (buildChain f r rest') := by
      rw [findChild_cons, buildChain_name]
      simp
    simp only [buildChain, findNodeTrace, WNode.children, h1]
    rw [buildChain_name, ih r f (acc ++ [r])]
    simp

theorem findNodeTrace_modifyAt :
    ∀ (comps : List String) (t : WNode) (f : WPathState → WPathState) (acc : List String),
      ((findNodeTrace (modifyAt t comps f) comps acc).map Prod.snd) = some (acc ++ comps) := by
  intro comps
  induction comps with
  | nil =>
    intro t f acc
    obtain ⟨nm, st, cs⟩ := t
    simp [modifyAt, findNodeTrace]
  | cons c rest ih =>
    intro t f acc
    obtain ⟨nm, st, cs⟩ := t
    simp only [modifyAt]
    match hfc : findChild cs c with
    | some ch =>
      have hname : ∀ x, ((fun x => modifyAt x rest f) x).name = x.name := fun x =>
        modifyAt_name x rest f
      have hch : findChild (updateFirst (fun x => x.name = c) (fun x => modifyAt x rest f) cs) c =
          some (modifyAt ch rest f) := by
        rw [findChild_updateFirst_same cs c _ hname, hfc]
        rfl
      simp only [findNodeTrace, WNode.children, hch]
      rw [modifyAt_name ch rest f, findChild_name hfc]
      have := ih ch f (acc ++ [c])
      rw [this]
      simp
    | none =>
      have h1 : findChild (buildChain f c rest :: cs) c = some (buildChain f c rest) := by
        rw [findChild_cons, buildChain_name]
        simp [hfc]
      simp only [findNodeTrace, WNode.children, h1]
      rw [buildChain_name, findNodeTrace_buildChain rest c f (acc ++ [c])]
      simp

theorem findNode_buildChain_isSome :
    ∀ (q p : List String) (c : String) (f : WPathState → WPathState),
      (findNode (buildChain f c p) q).isSome = List.isPrefixOf q p := by
  intro q
  induction q with
  | nil => intro p c f; simp [findNode, List.isPrefixOf]
  | cons a q' ih =>
    intro p c f
    match p with
    | [] => simp [buildChain, findNode, WNode.children, findChild, List.isPrefixOf]
    | r :: p' =>
      simp only [buildChain, findNode, WNode.children, List.isPrefixOf]
      rw [findChild_cons]
      by_cases har : a = r
      · subst har
        rw [if_pos (buildChain_name f a p')]
        simp [ih p' a f]
      · rw [if_neg (by rw [buildChain_name]; exact fun h => har h.symm)]
        simp [findChild, har]

theorem findNode_modifyAt_isSome :
    ∀ (q : List String) (t : WNode) (p : List String) (f : WPathState → WPathState),
      (findNode (modifyAt t p f) q).isSome =
        ((findNode t q).isSome || List.isPrefixOf q p) := by
  intro q
  induction q with
  | nil => intro t p f; simp [findNode, List.isPrefixOf]
  | cons a q' ih =>
    intro t p f
    obtain ⟨nm, st, cs⟩ := t
    match p with
    | [] =>
      simp [modifyAt, findNode, WNode.children, List.isPrefixOf]
    | d :: p' =>
      simp only [modifyAt]
      match hfc : findChild cs d with
      | some ch =>
        have hname : ∀ x, ((fun x => modifyAt x p' f) x).name = x.name := fun x =>
          modifyAt_name x p' f
        by_cases had : a = d
        · subst had
          have hch : findChild (updateFirst (fun x => x.name = a)
              (fun x => modifyAt x p' f) cs) a = some (modifyAt ch p' f) := by
            rw [findChild_updateFirst_same cs a _ hname, hfc]
            rfl
          simp only [findNode, WNode.children, hch, hfc, List.isPrefixOf]
          rw [ih ch p' f]
          simp
        · have hch : findChild (updateFirst (fun x => x.name = d)
              (fun x => modifyAt x p' f) cs) a = findChild cs a :=
            findChild_updateFirst_other cs a d _ hname had
          simp only [findNode, WNode.children, hch, List.isPrefixOf]
          have : (a == d) = false := by simp [had]
          rw [this]
          simp
      | none =>
        by_cases had : a = d
        · subst had
          have hch : findChild (buildChain f a p' :: cs) a = some (buildChain f a p') := by
            rw [findChild_cons, buildChain_name]
            simp [hfc]
          simp only [findNode, WNode.children, hch, hfc, List.isPrefixOf]
          rw [findNode_buildChain_isSome q' p' a f]
          simp
        · have hch : findChild (buildChain f d p' :: cs) a = findChild cs a := by
            rw [findChild_cons]
            rw [if_neg (by rw [buildChain_name]; exact fun h => had h.symm)]
          simp only [findNode, WNode.children, hch, List.isPrefixOf]
          have : (a == d) = false := by simp [had]
          rw [this]
          simp

theorem findNode_freshTree (q : List String) :
    (findNode freshTree q).isSome = q.isEmpty := by
  match q with
  | [] => rfl
  | a :: q' => simp [freshTree, findNode, WNode.children, findChild]

theorem findNode_foldl_ensure :
    ∀ (ops : List (List String)) (t : WNode) (q : List String),
      (findNode (ops.foldl ensurePath t) q).isSome =
        ((findNode t q).isSome || ops.any (fun p => List.isPrefixOf q p)) := by
  intro ops
  induction ops with
  | nil => intro t q; simp
  | cons p ops' ih =>
    intro t q
    simp only [List.foldl_cons, List.any_cons]
    rw [ih (ensurePath t p) q]
    rw [ensurePath, findNode_modifyAt_isSome q t p id]
    cases h1 : (findNode t q).isSome <;> cases h2 : List.isPrefixOf q p <;> simp

/-- A component that the tree can faithfully render: nonempty and without
a '/' (the separator the lookup splits on). -/
def goodComp (c : String) : Bool := !c.data.isEmpty && c.data.all (fun ch => ch != '/')

theorem splitCompsAux_word :
    ∀ (w acc rest : List Char), (∀ ch ∈ w, ¬ ch = '/') →
      splitCompsAux acc (w ++ rest) = splitCompsAux (w.reverse ++ acc) rest := by
  intro w
  induction w with
  | nil => intro acc rest _; simp
  | cons c w' ih =>
    intro acc rest hw
    have hc : ¬ c = '/' := hw c (by simp)
    simp only [List.cons_append, splitCompsAux, if_neg hc, List.append_eq]
    rw [ih (c :: acc) rest (fun ch hch => hw ch (by simp [hch]))]
    simp

theorem splitCompsAux_flatMap_cons (acc : List Char) (comps : List String)
    (hacc : ¬ acc.isEmpty = true) :
    splitCompsAux acc (comps.flatMap (fun c => '/' :: c.data)) =
      ⟨acc.reverse⟩ :: splitCompsAux [] (comps.flatMap (fun c => '/' :: c.data)) := by
  match comps with
  | [] => simp [splitCompsAux, hacc]
  | c :: rest =>
    simp only [List.flatMap_cons, List.cons_append, splitCompsAux, if_pos rfl]
    simp only [hacc, if_neg]
    have : acc.isEmpty = false := by simpa using hacc
    simp [this]

theorem splitPath_canonicalPath_aux :
    ∀ comps : List String, comps.all goodComp = true →
      splitCompsAux [] (comps.flatMap (fun c => '/' :: c.data)) = comps := by
  intro comps
  induction comps with
  | nil => intro _; rfl
  | cons c rest ih =>
    intro hall
    rw [List.all_cons, Bool.and_eq_true] at hall
    obtain ⟨hc, hrest⟩ := hall
    rw [goodComp, Bool.and_eq_true] at hc
    obtain ⟨hne, hnoslash⟩ := hc
    have hslash : ∀ ch ∈ c.data, ¬ ch = '/' := by
      intro ch hch
      have := List.all_eq_true.mp hnoslash ch hch
      simpa using this
    have step1 : splitCompsAux [] ((c :: rest).flatMap (fun x => '/' :: x.data)) =
        splitCompsAux [] (c.data ++ rest.flatMap (fun x => '/' :: x.data)) := rfl
    rw [step1, splitCompsAux_word c.data [] _ hslash, List.append_nil]
    have hrev : ¬ (c.data.reverse).isEmpty = true := by
      intro habs
      rw [List.isEmpty_iff] at habs
      have hcd : c.data = [] := by simpa using congrArg List.reverse habs
      rw [hcd] at hne
      simp at hne
    rw [splitCompsAux_flatMap_cons _ rest hrev, ih hrest]
    obtain ⟨cd⟩ := c
    simp

/-- C7: lookup totality of `wormhole_path_state_node_lookup` (return.c:281-314).
Part 1: after a `create = true` lookup of path p (for any state update f, in
particular the identity), the returned node exists and the name chain
recorded on the way down renders - via `wormhole_path_state_node_to_path` -
exactly the canonical form of p.  Part 2: rendering then re-splitting is the
identity on well-formed component lists, so for a canonical absolute P the
reconstructed path is P itself.  Part 3: on a fresh tree, a `create = false`
lookup finds only the root.  Part 4: after any sequence of `create = true`
lookups starting from a fresh tree, a `create = false` lookup of q succeeds
exactly when q is the root or a prefix of some previously looked-up path
(the nodes the prefix-building calls created). -/
theorem wormhole_path_state_node_lookup_total :
    (∀ (t : WNode) (p : String) (f : WPathState → WPathState),
      ((findNodeTrace (modifyAt t (splitPath p) f) (splitPath p) []).map
        (fun pr => canonicalPath pr.2)) = some (canonicalPath (splitPath p)))
    ∧ (∀ comps : List String, comps.all goodComp = true →
        splitPath (canonicalPath comps) = comps)
    ∧ (∀ q : List String, (findNode freshTree q).isSome = q.isEmpty)
    ∧ (∀ (ops : List (List String)) (q : List String),
        (findNode (ops.foldl ensurePath freshTree) q).isSome =
          (q.isEmpty || ops.any (fun p => List.isPrefixOf q p))) := by
  refine ⟨?_, ?_, findNode_freshTree, ?_⟩
  · intro t p f
    have h := findNodeTrace_modifyAt (splitPath p) t f []
    rw [show (fun pr : WNode × List String => canonicalPath pr.2) =
      canonicalPath ∘ Prod.snd from rfl]
    rw [← Option.map_map, h]
    simp
  · intro comps hall
    match comps with
    | [] => rfl
    | c :: rest =>
      have : canonicalPath (c :: rest) = ⟨(c :: rest).flatMap (fun x => '/' :: x.data)⟩ := by
        simp [canonicalPath]
      rw [this]
      exact splitPath_canonicalPath_aux (c :: rest) hall
  · intro ops q
    rw [findNode_foldl_ensure ops freshTree q, findNode_freshTree]

/-- Witness for C7 at concrete inputs: creating "/usr/bin" in a fresh tree
yields a node rendering as "/usr/bin"; the canonical rendering round-trips;
and after creating "/usr/bin" the non-creating lookup finds "/usr" (a prefix
the create pass built) but not "/etc". -/
theorem wormhole_path_state_node_lookup_total_witness :
    ((findNodeTrace (modifyAt freshTree (splitPath "/usr/bin") id) (splitPath "/usr/bin") []).map
      (fun pr => canonicalPath pr.2)) = some "/usr/bin" ∧
    splitPath (canonicalPath ["usr", "bin"]) = ["usr", "bin"] ∧
    (findNode ([["usr", "bin"]].foldl ensurePath freshTree) ["usr"]).isSome = true ∧
    (findNode ([["usr", "bin"]].foldl ensurePath freshTree) ["etc"]).isSome = false := by
  refine ⟨?_, ?_, ?_, ?_⟩
  · rw [wormhole_path_state_node_lookup_total.1 freshTree "/usr/bin" id]
    decide
  · exact wormhole_path_state_node_lookup_total.2.1 ["usr", "bin"] (by decide)
  · rw [wormhole_path_state_node_lookup_total.2.2.2 [["usr", "bin"]] ["usr"]]
    decide
  · rw [wormhole_path_state_node_lookup_total.2.2.2 [["usr", "bin"]] ["etc"]]
    decide

/-! ### profiles.c: the Overlay path directive (C1) -/

/-- The arguments of one `fsutil_mount_overlay(lower, upper, work, target)`
call (util.h): a colon-separated lower list, optional upper and work
directories (both NULL for a read-only overlay), and the mount point. -/
structure OverlayMount where
  lower : String
  upper : Option String
  work : Option String
  target : String
deriving DecidableEq

/-- `_pathinfo_overlay_one` (profiles.c:450-471), successful branch: build
the lower list "target:source" (profiles.c:458), mount a read-only overlay
there - upper and work are NULL (profiles.c:461) - and then record the
mount by calling `wormhole_tree_state_set_overlay_mounted(tree_state,
source, target)` (profiles.c:469), i.e. with `source` in the path-key
position and `target` in the upperdir position. -/
def pathinfo_overlay_one (tree : WNode) (source target : String) :
    OverlayMount × WNode :=
  ({ lower := target ++ ":" ++ source, upper := none, work := none, target := target },
   wormhole_tree_state_set_overlay_mounted tree source (some target))

/-- C1 (failing-input evaluation): for the Overlay directive with
source = "/layers/py/usr" (the path inside the layer) and destination
"/usr", the mount is indeed the read-only overlay with lower list
"dst:src" at dst - but the OverlayMounted disposition lands at the SOURCE
key, carrying the destination in the upperdir slot, while the destination
path stays absent from the tree.  This contradicts the claim that the
record is made at dst and not at src. -/
theorem pathinfo_overlay_one_records_at_source :
    (pathinfo_overlay_one freshTree "/layers/py/usr" "/usr").1.lower =
        "/usr:/layers/py/usr" ∧
    (pathinfo_overlay_one freshTree "/layers/py/usr" "/usr").1.target = "/usr" ∧
    (pathinfo_overlay_one freshTree "/layers/py/usr" "/usr").1.upper = none ∧
    wormhole_path_tree_get (pathinfo_overlay_one freshTree "/layers/py/usr" "/usr").2
        "/layers/py/usr" =
      some { state := WORMHOLE_PATH_STATE_OVERLAY_MOUNTED, upperdir := some "/usr" } ∧
    wormhole_path_tree_get (pathinfo_overlay_one freshTree "/layers/py/usr" "/usr").2
        "/usr" = none := by
  decide

/-! ### digger.c: harvest (C9) -/

/-- The decision `combine_tree` takes for one yielded (mount_point, state)
pair (digger.c:506-537): only OverlayMounted nodes are considered; the
upperdir must exist as a directory (`fsutil_isdir`, false for a NULL
upperdir) and be non-empty (`fsutil_dir_is_empty`); a processed node
produces the mkdir of `tree_root/<dirname mount_point>` (via
`__init_working_dir`) and the rename of the upperdir onto
`tree_root<mount_point>`.  `isdir` and `isEmptyDir` are the filesystem's
answers; `pathutil_dirname` (util.c, not part of this tree) is rendered as
the canonical path of the components minus the last one. -/
def combineRename (treeRoot : String) (isdir isEmptyDir : String → Bool)
    (pr : List String × WPathState) : Option (String × String × String) :=
  if pr.2.state ≠ WORMHOLE_PATH_STATE_OVERLAY_MOUNTED then none
  else
    match pr.2.upperdir with
    | none => none
    | some delta =>
      if ¬ isdir delta = true then none
      else if isEmptyDir delta = true then none
      else some (treeRoot ++ "/" ++ canonicalPath pr.1.dropLast, delta,
                 treeRoot ++ canonicalPath pr.1)

/-- `combine_tree` (digger.c:495-542), successful run: walk the assembled
tree with the return.c iterator and process every yield in order; the
result lists each processed node's (mkdir target, rename source, rename
destination). -/
def combine_tree (overlayRoot : String) (t : WNode) (isdir isEmptyDir : String → Bool) :
    List (String × String × String) :=
  (wormhole_tree_walk_yields t).filterMap
    (combineRename (overlayRoot ++ "/tree") isdir isEmptyDir)

theorem combineRename_eq_some (treeRoot : String) (isdir isEmptyDir : String → Bool)
    (pr : List String × WPathState) (x : String × String × String) :
    combineRename treeRoot isdir isEmptyDir pr = some x ↔
      (pr.2.state = WORMHOLE_PATH_STATE_OVERLAY_MOUNTED ∧
       pr.2.upperdir = some x.2.1 ∧ isdir x.2.1 = true ∧ isEmptyDir x.2.1 = false ∧
       x.1 = treeRoot ++ "/" ++ canonicalPath pr.1.dropLast ∧
       x.2.2 = treeRoot ++ canonicalPath pr.1) := by
  obtain ⟨comps, st⟩ := pr
  obtain ⟨mk0, src0, dst0⟩ := x
  constructor
  · intro h
    simp only [combineRename] at h
    split at h
    · cases h
    · next h1 =>
      rw [not_not] at h1
      split at h
      · cases h
      · next delta hup =>
        split at h
        · cases h
        · next h2 =>
          rw [not_not] at h2
          split at h
          · cases h
          · next h3 =>
            rw [Option.some.injEq, Prod.mk.injEq] at h
            obtain ⟨hm, hrest⟩ := h
            rw [Prod.mk.injEq] at hrest
            obtain ⟨hs, hd⟩ := hrest
            subst hs
            exact ⟨h1, hup, h2, by simpa using h3, hm.symm, hd.symm⟩
  · rintro ⟨hstate, hup, hdir, hem, rfl, rfl⟩
    simp only at hstate hup hdir hem
    simp [combineRename, hstate, hup, hdir, hem]

/-- C9: during harvest, `combine_tree` (digger.c:495-542) renames an
upperdir into place at overlay_root/tree<mount_point>, creating the parent
directory first, exactly for the walked tree nodes that carry the
OverlayMounted disposition with that upperdir and whose upperdir is a
non-empty directory; empty directories, non-directories and NULL upperdirs
are skipped and contribute nothing.  Stated as a characterization of the
produced (mkdir target, rename source, rename destination) triples against
the tree's nodes; the walk covers every node strictly below the root. -/
theorem combine_tree_spec :
    ∀ (overlayRoot : String) (t : WNode) (isdir isEmptyDir : String → Bool)
      (mk0 src dst : String),
      (mk0, src, dst) ∈ combine_tree overlayRoot t isdir isEmptyDir ↔
        ∃ comps st, (comps, st) ∈ preForest [] t.children ∧
          st.state = WORMHOLE_PATH_STATE_OVERLAY_MOUNTED ∧
          st.upperdir = some src ∧ isdir src = true ∧ isEmptyDir src = false ∧
          mk0 = (overlayRoot ++ "/tree") ++ "/" ++ canonicalPath comps.dropLast ∧
          dst = (overlayRoot ++ "/tree") ++ canonicalPath comps := by
  intro overlayRoot t isdir isEmptyDir mk0 src dst
  simp only [combine_tree, List.mem_filterMap]
  constructor
  · rintro ⟨pr, hpr, hcr⟩
    obtain ⟨comps, st⟩ := pr
    rw [combineRename_eq_some] at hcr
    obtain ⟨h1, h2, h3, h4, h5, h6⟩ := hcr
    simp only at h1 h2 h3 h4 h5 h6
    rw [wormhole_tree_walk_yields_eq] at hpr
    have hmem := List.mem_of_mem_filter hpr
    exact ⟨comps, st, hmem, h1, h2, h3, h4, h5, h6⟩
  · rintro ⟨comps, st, hmem, h1, h2, h3, h4, h5, h6⟩
    refine ⟨(comps, st), ?_, ?_⟩
    · rw [wormhole_tree_walk_yields_eq]
      refine List.mem_filter.mpr ⟨hmem, ?_⟩
      simp [changedP, h1, WORMHOLE_PATH_STATE_OVERLAY_MOUNTED]
    · rw [combineRename_eq_some]
      exact ⟨h1, h2, h3, h4, h5, h6⟩

/-! ### config.h / environment.h: configuration data model

Shared by the claims about setup, flattening and the config writer.
Strings are `Str` (`List Char`) so that the tokenizer of the config parser
can be stated over them directly. -/

/-- `WORMHOLE_PATH_TYPE_*` (environment.h:29-37). -/
inductive WPathType where
  | hide
  | bind
  | bindChildren
  | overlay
  | overlayChildren
  | mount
  | wormholeCmd
deriving DecidableEq

/-- `wormhole_path_info_t` (environment.h:39-50); the mount union members
are populated for `mount` directives only. -/
structure WPathInfo where
  type : WPathType
  path : Str
  fstype : Option Str := none
  device : Option Str := none
  options : Option Str := none
deriving DecidableEq

/-- `WORMHOLE_LAYER_TYPE_*` (config.h:33-37). -/
inductive WLayerType where
  | layer
  | reference
  | image
deriving DecidableEq

/-- `struct wormhole_layer_config` (config.h:39-52). -/
structure WLayerConfig where
  type : WLayerType
  directory : Option Str := none
  image : Option Str := none
  lowerLayerName : Option Str := none
  useLdconfig : Bool := false
  paths : List WPathInfo := []
deriving DecidableEq

/-- `struct wormhole_environment_config` (config.h:54-60, plus the
provides/requires arrays the parser fills in). -/
structure WEnvConfig where
  name : Str
  provides : List Str := []
  requires : List Str := []
  layers : List WLayerConfig := []
deriving DecidableEq

/-! ### profiles.c: environment setup (C5)

`wormhole_environment_setup` (profiles.c:856-881) iterates over the
flattened layer array; a non-bottom Image layer is a hard error; each layer
is set up by `wormhole_layer_setup` (profiles.c:803-854), whose filesystem
and container-runtime outcomes are provided by an oracle. -/

/-- Outcomes of the external operations `wormhole_layer_setup` performs:
`overlay_container_mount` (profiles.c:367-386, returning the mounted image
root or NULL), the glob+mount processing of one path directive
(`pathinfo_process_glob` and friends), and the ldconfig post-step. -/
structure SetupOracle where
  containerMount : Str → Option Str
  mountOk : WPathInfo → Bool
  ldconfigOk : Bool

/-- `pathinfo_process` (profiles.c:703-737): Hide is rejected outright
("not yet implemented"); OverlayChildren falls through to the unsupported
default (its handler is compiled out at profiles.c:722-725); the remaining
kinds expand the glob and mount, with the outcome given by the oracle. -/
def pathinfo_process (oracle : SetupOracle) (pi : WPathInfo) : Bool :=
  match pi.type with
  | .hide => false
  | .bind => oracle.mountOk pi
  | .bindChildren => oracle.mountOk pi
  | .overlay => oracle.mountOk pi
  | .overlayChildren => false
  | .mount => oracle.mountOk pi
  | .wormholeCmd => oracle.mountOk pi

/-- The runtime environment fields `wormhole_layer_setup` reads and writes
(environment.h:83-118): the chroot target and the failure flag; the layer
array is carried separately. -/
structure WEnv where
  rootDirectory : Option Str := none
  failed : Bool := false
deriving DecidableEq

/-- `wormhole_layer_setup` (profiles.c:803-854): resolve the layer's source
root (container mount when an image is named - a NULL result is only
logged - else the configured directory, which the code asserts to be
present); an Image layer must find the environment's root directory still
unset and installs the resolved root there; then every path directive is
processed in order, stopping at the first failure, and the optional
ldconfig step runs last.  Returns the updated environment on success. -/
def wormhole_layer_setup (oracle : SetupOracle) (env : WEnv) (layer : WLayerConfig) :
    Option WEnv :=
  if layer.image = none ∧ layer.directory = none then none
  else
    let overlayRoot : Option Str :=
      match layer.image with
      | some img => oracle.containerMount img
      | none => layer.directory
    if layer.type = .image ∧ env.rootDirectory ≠ none then none
    else
      let env' := if layer.type = .image then { env with rootDirectory := overlayRoot } else env
      if layer.paths.all (fun pi => pathinfo_process oracle pi) then
        if layer.useLdconfig then (if oracle.ldconfigOk then some env' else none)
        else some env'
      else none

/-- The layer loop of `wormhole_environment_setup` (profiles.c:868-878):
`i` is the current index; an Image layer at a non-zero index aborts with an
error before its setup is attempted. -/
def setupLayersLoop (oracle : SetupOracle) : WEnv → Nat → List WLayerConfig → Bool
  | _, _, [] => true
  | env, i, l :: rest =>
    if 0 < i ∧ l.type = .image then false
    else
      match wormhole_layer_setup oracle env l with
      | none => false
      | some env' => setupLayersLoop oracle env' (i + 1) rest

/-- `wormhole_environment_setup` (profiles.c:856-881): refuse an
already-failed environment, reset the tree state (not modelled - no claim
reads it here), then run the layer loop from index 0. -/
def wormhole_environment_setup (oracle : SetupOracle) (env : WEnv)
    (layers : List WLayerConfig) : Bool :=
  if env.failed then false
  else setupLayersLoop oracle env 0 layers

theorem setupLayersLoop_image_false (oracle : SetupOracle) :
    ∀ (pre : List WLayerConfig) (l : WLayerConfig) (post : List WLayerConfig)
      (env : WEnv) (i : Nat), l.type = .image → 0 < i + pre.length →
      setupLayersLoop oracle env i (pre ++ l :: post) = false := by
  intro pre
  induction pre with
  | nil =>
    intro l post env i himg hpos
    simp only [List.nil_append, setupLayersLoop]
    rw [if_pos ⟨by simpa using hpos, himg⟩]
  | cons p pre' ih =>
    intro l post env i himg hpos
    simp only [List.cons_append, setupLayersLoop]
    by_cases hp : 0 < i ∧ p.type = .image
    · rw [if_pos hp]
    · rw [if_neg hp]
      match wormhole_layer_setup oracle env p with
      | none => rfl
      | some env' =>
        exact ih l post env' (i + 1) himg (by simp only [List.length_cons] at hpos; omega)

/-- C5: the Image-bottom rule of `wormhole_environment_setup`
(profiles.c:856-881).  First part: whenever the flattened layer list has an
Image layer at any index other than 0 (in particular a second Image after a
bottom one), setup returns false, whatever the filesystem and runtime do.
Second part: an environment that is not marked failed, whose root directory
is still unset, with a single Image layer whose directives and optional
ldconfig step succeed, is accepted. -/
theorem wormhole_environment_setup_image_bottom :
    (∀ (oracle : SetupOracle) (env : WEnv) (pre : List WLayerConfig)
       (l : WLayerConfig) (post : List WLayerConfig),
       l.type = .image → pre ≠ [] →
       wormhole_environment_setup oracle env (pre ++ l :: post) = false)
    ∧ (∀ (oracle : SetupOracle) (env : WEnv) (l : WLayerConfig),
       env.failed = false → env.rootDirectory = none → l.type = .image →
       ¬ (l.image = none ∧ l.directory = none) →
       l.paths.all (fun pi => pathinfo_process oracle pi) = true →
       (l.useLdconfig = true → oracle.ldconfigOk = true) →
       wormhole_environment_setup oracle env [l] = true) := by
  constructor
  · intro oracle env pre l post himg hpre
    rw [wormhole_environment_setup]
    by_cases hf : env.failed = true
    · rw [if_pos hf]
    · rw [if_neg hf]
      apply setupLayersLoop_image_false oracle pre l post env 0 himg
      have : pre.length ≠ 0 := fun h => hpre (List.eq_nil_of_length_eq_zero h)
      omega
  · intro oracle env l hf hroot himg hdir hpaths hld
    rw [wormhole_environment_setup, if_neg (by simp [hf])]
    simp only [setupLayersLoop]
    rw [if_neg (by simp)]
    have hsetup : wormhole_layer_setup oracle env l =
        some (if l.type = .image then
          { env with rootDirectory :=
              match l.image with
              | some img => oracle.containerMount img
              | none => l.directory }
          else env) := by
      rw [wormhole_layer_setup, if_neg hdir]
      rw [if_neg (by simp [hroot])]
      rw [if_pos hpaths]
      by_cases hldc : l.useLdconfig = true
      · rw [if_pos hldc, if_pos (hld hldc)]
      · rw [if_neg hldc]
    rw [hsetup]

/-- Witness for C5 at concrete inputs: a two-layer stack with the Image on
top is rejected for every oracle outcome (shown for one concrete oracle),
and the singleton Image environment is accepted. -/
theorem wormhole_environment_setup_image_bottom_witness :
    wormhole_environment_setup
      ⟨fun _ => some "/mnt/img".toList, fun _ => true, true⟩ {}
      [{ type := .layer, directory := some "/opt/layer".toList },
       { type := .image, image := some "leap".toList }] = false ∧
    wormhole_environment_setup
      ⟨fun _ => some "/mnt/img".toList, fun _ => true, true⟩ {}
      [{ type := .image, image := some "leap".toList }] = true := by
  constructor
  · exact wormhole_environment_setup_image_bottom.1
      ⟨fun _ => some "/mnt/img".toList, fun _ => true, true⟩ {}
      [{ type := .layer, directory := some "/opt/layer".toList }]
      { type := .image, image := some "leap".toList } [] rfl (by decide)
  · exact wormhole_environment_setup_image_bottom.2
      ⟨fun _ => some "/mnt/img".toList, fun _ => true, true⟩ {}
      { type := .image, image := some "leap".toList }
      rfl rfl rfl (by decide) (by decide) (fun _ => rfl)

/-! ### profiles.c: flattening of Reference layers (C3)

`__wormhole_environment_chase_layers` (profiles.c:145-171) walks an
environment config's layer list; a Reference layer is replaced by the
layers of the referenced environment, recursively and with no cycle
detection; any other layer is appended to the environment's flat layer
array by `__wormhole_environment_add_layer` (profiles.c:133-143), which
fails once `WORMHOLE_ENVIRONMENT_LAYER_MAX` layers are present.  The C
recursion is modelled with explicit fuel so that non-termination is
observable as `fuelOut` at every fuel. -/

def WORMHOLE_ENVIRONMENT_LAYER_MAX : Nat := 8

/-- `wormhole_environment_find`, as used at profiles.c:156: every
environment config has been registered beforehand
(`__wormhole_profiles_configure_environments`, profiles.c:173-196), so the
lookup is a search of the config list by name. -/
def findEnv (cfgs : List WEnvConfig) (name : Str) : Option WEnvConfig :=
  cfgs.find? (fun c => c.name == name)

/-- `__wormhole_environment_add_layer` (profiles.c:133-143): refuse the
append once the flat list holds `WORMHOLE_ENVIRONMENT_LAYER_MAX` layers. -/
def addLayer (acc : List WLayerConfig) (l : WLayerConfig) : Option (List WLayerConfig) :=
  if WORMHOLE_ENVIRONMENT_LAYER_MAX ≤ acc.length then none
  else some (acc ++ [l])

/-- Outcome of a fuelled run of the chase: a flat layer list, the C
function's `false` return, or fuel exhaustion (the C recursion still
running). -/
inductive ChaseRes where
  | ok (layers : List WLayerConfig)
  | err
  | fuelOut
deriving DecidableEq

/-- `__wormhole_environment_chase_layers` (profiles.c:145-171) with the
environment's flat layer array threaded as `acc`.  A Reference layer whose
environment is missing is an error; otherwise the referenced config's
layers are chased first and the loop resumes with the grown accumulator.
Fuel decreases on every call, so a run of the C code that performs `n`
loop steps is reproduced by any fuel above `n`. -/
def chaseLayers (cfgs : List WEnvConfig) :
    Nat → List WLayerConfig → List WLayerConfig → ChaseRes
  | 0, _, _ => .fuelOut
  | _ + 1, acc, [] => .ok acc
  | fuel + 1, acc, l :: rest =>
    if l.type = .reference then
      match findEnv cfgs (l.lowerLayerName.getD []) with
      | none => .err
      | some lower =>
        match chaseLayers cfgs fuel acc lower.layers with
        | .ok acc' => chaseLayers cfgs fuel acc' rest
        | r => r
    else
      match addLayer acc l with
      | none => .err
      | some acc' => chaseLayers cfgs fuel acc' rest

/-- A chase that exhausts every fuel: the C recursion never returns. -/
def chaseDiverges (cfgs : List WEnvConfig) (ls : List WLayerConfig) : Prop :=
  ∀ fuel, chaseLayers cfgs fuel [] ls = .fuelOut

/-- A plain directory layer used by the concrete chase examples. -/
def plainLayerLower : WLayerConfig :=
  { type := .layer, directory := some "/opt/lower".toList }

/-- An environment with one plain layer, referenced by another. -/
def plainEnvLower : WEnvConfig :=
  { name := "lower".toList, layers := [plainLayerLower] }

/-- An environment whose first layer references `plainEnvLower`. -/
def refEnvUpper : WEnvConfig :=
  { name := "upper".toList,
    layers := [{ type := .reference, lowerLayerName := some "lower".toList },
               { type := .layer, directory := some "/opt/upper".toList }] }

/-- An environment whose single layer references the environment itself. -/
def selfRefEnv : WEnvConfig :=
  { name := "selfref".toList,
    layers := [{ type := .reference, lowerLayerName := some "selfref".toList }] }

/-- Counterexample to C3's termination part: on a self-referencing
environment, `__wormhole_environment_chase_layers` recurses forever (the
fuelled model exhausts every fuel), rather than failing as the claimed
cycle-is-an-error behaviour would require. -/
theorem chase_layers_diverges_on_self_reference :
    chaseDiverges [selfRefEnv] selfRefEnv.layers := by
  intro fuel
  induction fuel with
  | zero => rfl
  | succ f ih =>
    have step : chaseLayers [selfRefEnv] (f + 1) [] selfRefEnv.layers =
        (match chaseLayers [selfRefEnv] f [] selfRefEnv.layers with
         | .ok acc2 => chaseLayers [selfRefEnv] f acc2 []
         | r => r) := rfl
    rw [step, ih]

theorem chaseLayers_mono (cfgs : List WEnvConfig) :
    ∀ (fuel : Nat) (acc ls : List WLayerConfig) (r : ChaseRes),
      chaseLayers cfgs fuel acc ls = r → r ≠ .fuelOut →
      chaseLayers cfgs (fuel + 1) acc ls = r := by
  intro fuel
  induction fuel with
  | zero =>
    intro acc ls r h hne
    exact absurd h.symm (by simpa [chaseLayers] using hne)
  | succ f ih =>
    intro acc ls r h hne
    match ls with
    | [] => exact h
    | l :: rest =>
      simp only [chaseLayers] at h ⊢
      by_cases hl : l.type = .reference
      · rw [if_pos hl] at h ⊢
        cases hfind : findEnv cfgs (l.lowerLayerName.getD []) with
        | none =>
          rw [hfind] at h
          exact h
        | some lower =>
          rw [hfind] at h
          have h2 : (match chaseLayers cfgs f acc lower.layers with
              | ChaseRes.ok acc2 => chaseLayers cfgs f acc2 rest
              | r2 => r2) = r := h
          show (match chaseLayers cfgs (f + 1) acc lower.layers with
              | ChaseRes.ok acc2 => chaseLayers cfgs (f + 1) acc2 rest
              | r2 => r2) = r
          cases hinner : chaseLayers cfgs f acc lower.layers with
          | ok acc2 =>
            rw [hinner] at h2
            rw [ih acc lower.layers (.ok acc2) hinner (by simp)]
            exact ih acc2 rest r h2 hne
          | err =>
            rw [hinner] at h2
            rw [ih acc lower.layers .err hinner (by simp)]
            exact h2
          | fuelOut =>
            rw [hinner] at h2
            exact absurd h2.symm hne
      · rw [if_neg hl] at h ⊢
        cases haddl : addLayer acc l with
        | none =>
          rw [haddl] at h
          exact h
        | some acc2 =>
          rw [haddl] at h
          exact ih acc2 rest r h hne

theorem chaseLayers_mono_le (cfgs : List WEnvConfig) :
    ∀ (fuel fuel' : Nat) (acc ls : List WLayerConfig) (r : ChaseRes),
      fuel ≤ fuel' → chaseLayers cfgs fuel acc ls = r → r ≠ .fuelOut →
      chaseLayers cfgs fuel' acc ls = r := by
  intro fuel fuel' acc ls r hle h hne
  induction fuel' with
  | zero =>
    have : fuel = 0 := Nat.le_zero.mp hle
    subst this; exact h
  | succ f ih =>
    rcases Nat.lt_or_ge fuel (f + 1) with hlt | hge
    · exact chaseLayers_mono cfgs f acc ls r (ih (Nat.lt_succ_iff.mp hlt)) hne
    · have : fuel = f + 1 := Nat.le_antisymm hle hge
      subst this; exact h

theorem chaseLayers_ok_flat (cfgs : List WEnvConfig) :
    ∀ (fuel : Nat) (acc ls out : List WLayerConfig),
      chaseLayers cfgs fuel acc ls = .ok out →
      (∀ l ∈ acc, l.type ≠ .reference) → acc.length ≤ WORMHOLE_ENVIRONMENT_LAYER_MAX →
      (∀ l ∈ out, l.type ≠ .reference) ∧ out.length ≤ WORMHOLE_ENVIRONMENT_LAYER_MAX := by
  intro fuel
  induction fuel with
  | zero => intro acc ls out h _ _; exact absurd h (by simp [chaseLayers])
  | succ f ih =>
    intro acc ls out h hacc hlen
    match ls with
    | [] =>
      simp only [chaseLayers, ChaseRes.ok.injEq] at h
      subst h; exact ⟨hacc, hlen⟩
    | l :: rest =>
      simp only [chaseLayers] at h
      by_cases hl : l.type = .reference
      · rw [if_pos hl] at h
        cases hfind : findEnv cfgs (l.lowerLayerName.getD []) with
        | none =>
          rw [hfind] at h
          exact absurd h (by simp)
        | some lower =>
          rw [hfind] at h
          have h2 : (match chaseLayers cfgs f acc lower.layers with
              | ChaseRes.ok acc2 => chaseLayers cfgs f acc2 rest
              | r2 => r2) = ChaseRes.ok out := h
          cases hinner : chaseLayers cfgs f acc lower.layers with
          | ok acc2 =>
            rw [hinner] at h2
            have ⟨h3, h4⟩ := ih acc lower.layers acc2 hinner hacc hlen
            exact ih acc2 rest out h2 h3 h4
          | err => rw [hinner] at h2; exact absurd h2 (by simp)
          | fuelOut => rw [hinner] at h2; exact absurd h2 (by simp)
      · rw [if_neg hl] at h
        cases haddh : addLayer acc l with
        | none =>
          rw [haddh] at h
          exact absurd h (by simp)
        | some acc2 =>
          rw [haddh] at h
          rw [addLayer] at haddh
          split at haddh
          · exact absurd haddh (by simp)
          · next hcap =>
            have haccv : acc2 = acc ++ [l] := by
              simpa using haddh.symm
            subst haccv
            apply ih (acc ++ [l]) rest out h
            · intro x hx
              rcases List.mem_append.mp hx with hx | hx
              · exact hacc x hx
              · simp only [List.mem_singleton] at hx; subst hx; exact hl
            · simp only [List.length_append, List.length_singleton]
              omega

theorem chaseLayers_of_flat (cfgs : List WEnvConfig) :
    ∀ (flat acc : List WLayerConfig),
      (∀ l ∈ flat, l.type ≠ .reference) →
      acc.length + flat.length ≤ WORMHOLE_ENVIRONMENT_LAYER_MAX →
      chaseLayers cfgs (flat.length + 1) acc flat = .ok (acc ++ flat) := by
  intro flat
  induction flat with
  | nil => intro acc _ _; simp [chaseLayers]
  | cons l rest ih =>
    intro acc hflat hlen
    simp only [List.length_cons, chaseLayers]
    rw [if_neg (hflat l (List.mem_cons_self l rest))]
    have hcap : ¬ WORMHOLE_ENVIRONMENT_LAYER_MAX ≤ acc.length := by
      simp only [List.length_cons] at hlen
      unfold WORMHOLE_ENVIRONMENT_LAYER_MAX at hlen ⊢
      omega
    rw [addLayer, if_neg hcap]
    have := ih (acc ++ [l])
      (fun x hx => hflat x (List.mem_cons_of_mem l hx))
      (by simp only [List.length_append, List.length_singleton]
          simp only [List.length_cons] at hlen
          omega)
    show chaseLayers cfgs (rest.length + 1) (acc ++ [l]) rest = ChaseRes.ok (acc ++ l :: rest)
    rw [this]
    simp

/-- C3 (amended): the chase terminates when the environment-reference
graph is acyclic, witnessed by a rank function that strictly decreases
across every resolvable Reference layer; and flattening is a fixpoint: a
successful chase yields a list with no Reference layers of length at most
`WORMHOLE_ENVIRONMENT_LAYER_MAX`, and chasing that list again reproduces
it exactly.  (On a reference cycle the chase does not fail: it diverges -
see the counterexample - and a returned error signals a missing referenced
environment or the layer cap, not a cycle.) -/
theorem chase_layers_flattening :
    (∀ (cfgs : List WEnvConfig) (rank : Str → Nat),
      (∀ e ∈ cfgs, ∀ l ∈ e.layers, l.type = .reference →
        ∀ e2 ∈ findEnv cfgs (l.lowerLayerName.getD []), rank e2.name < rank e.name) →
      ∀ (R : Nat) (ls acc : List WLayerConfig),
        (∀ l ∈ ls, l.type = .reference →
          ∀ e2 ∈ findEnv cfgs (l.lowerLayerName.getD []), rank e2.name < R) →
        ∃ fuel, chaseLayers cfgs fuel acc ls ≠ .fuelOut)
    ∧ (∀ (cfgs : List WEnvConfig) (fuel : Nat) (ls out : List WLayerConfig),
        chaseLayers cfgs fuel [] ls = .ok out →
        (∀ l ∈ out, l.type ≠ .reference) ∧ out.length ≤ WORMHOLE_ENVIRONMENT_LAYER_MAX ∧
        chaseLayers cfgs (out.length + 1) [] out = .ok out) := by
  constructor
  · intro cfgs rank hr R
    induction R using Nat.strong_induction_on with
    | _ R ihR =>
      intro ls
      induction ls with
      | nil => intro acc _; exact ⟨1, by simp [chaseLayers]⟩
      | cons l rest ihls =>
        intro acc hls
        by_cases hl : l.type = .reference
        · match hfind : findEnv cfgs (l.lowerLayerName.getD []) with
          | none =>
            refine ⟨1, ?_⟩
            simp [chaseLayers, hl, hfind]
          | some lower =>
            have hlow : rank lower.name < R :=
              hls l (List.mem_cons_self l rest) hl lower (by rw [hfind]; rfl)
            have hmem : lower ∈ cfgs := List.mem_of_find?_eq_some hfind
            have hlower : ∀ l2 ∈ lower.layers, l2.type = .reference →
                ∀ e2 ∈ findEnv cfgs (l2.lowerLayerName.getD []),
                  rank e2.name < rank lower.name :=
              fun l2 h2 ht e2 he2 => hr lower hmem l2 h2 ht e2 he2
            obtain ⟨f1, hf1⟩ := ihR (rank lower.name) hlow lower.layers acc hlower
            match hr1 : chaseLayers cfgs f1 acc lower.layers with
            | .fuelOut => exact absurd hr1 hf1
            | .err =>
              refine ⟨f1 + 1, ?_⟩
              simp only [chaseLayers, if_pos hl, hfind, hr1]
              simp
            | .ok acc' =>
              obtain ⟨f2, hf2⟩ := ihls acc'
                (fun x hx ht e2 he2 => hls x (List.mem_cons_of_mem l hx) ht e2 he2)
              refine ⟨max f1 f2 + 1, ?_⟩
              simp only [chaseLayers, if_pos hl, hfind]
              rw [chaseLayers_mono_le cfgs f1 (max f1 f2) acc lower.layers
                (.ok acc') (Nat.le_max_left f1 f2) hr1 (by simp)]
              show chaseLayers cfgs (max f1 f2) acc' rest ≠ .fuelOut
              cases hr2 : chaseLayers cfgs f2 acc' rest with
              | fuelOut => exact absurd hr2 hf2
              | ok acc2 =>
                rw [chaseLayers_mono_le cfgs f2 (max f1 f2) acc' rest
                  (.ok acc2) (Nat.le_max_right f1 f2) hr2 (by simp)]
                simp
              | err =>
                rw [chaseLayers_mono_le cfgs f2 (max f1 f2) acc' rest
                  .err (Nat.le_max_right f1 f2) hr2 (by simp)]
                simp
        · match haddh : addLayer acc l with
          | none =>
            refine ⟨1, ?_⟩
            simp [chaseLayers, hl, haddh]
          | some acc' =>
            obtain ⟨f2, hf2⟩ := ihls acc'
              (fun x hx ht e2 he2 => hls x (List.mem_cons_of_mem l hx) ht e2 he2)
            refine ⟨f2 + 1, ?_⟩
            simp only [chaseLayers, if_neg hl, haddh]
            exact hf2
  · intro cfgs fuel ls out h
    obtain ⟨h1, h2⟩ := chaseLayers_ok_flat cfgs fuel [] ls out h
      (by simp) (by simp [WORMHOLE_ENVIRONMENT_LAYER_MAX])
    refine ⟨h1, h2, ?_⟩
    have := chaseLayers_of_flat cfgs out [] h1 (by simpa using h2)
    simpa using this

/-- Witness for C3 at concrete inputs: a two-environment configuration
whose reference graph is acyclic (ranked by name) admits a terminating
chase, and re-chasing the concrete flat result of that chase reproduces
it. -/
theorem chase_layers_flattening_witness :
    (∃ fuel, chaseLayers [refEnvUpper, plainEnvLower] fuel [] refEnvUpper.layers ≠ .fuelOut)
    ∧ chaseLayers [refEnvUpper, plainEnvLower]
        ((plainLayerLower :: refEnvUpper.layers.tail).length + 1) []
        (plainLayerLower :: refEnvUpper.layers.tail) =
      .ok (plainLayerLower :: refEnvUpper.layers.tail) := by
  constructor
  · exact chase_layers_flattening.1 [refEnvUpper, plainEnvLower]
      (fun n => if n = "lower".toList then 0 else 1)
      (by decide) 2 refEnvUpper.layers [] (by decide)
  · exact (chase_layers_flattening.2 [refEnvUpper, plainEnvLower] 3
      refEnvUpper.layers (plainLayerLower :: refEnvUpper.layers.tail)
      (by decide)).2.2

/-! ### auto-profile.c: the stray-file gate (C8)

`check_for_stray_files` (auto-profile.c:1040-1060) walks the tree root
with `fsutil_ftw` and fails if the walk fails or if the accumulated stray
count is non-zero.  The walk outcome and the final count are inputs here.
`wormhole_auto_profile` (auto-profile.c:1090-1130) runs this gate - unless
the profile sets `ignore stray-files` - before `wormhole_config_write`;
its tail after a successful `autoprofile_process` is modelled as an
(exit code, config-write attempted) pair. -/

def check_for_stray_files (ftwOk : Bool) (strayCount : Nat) : Bool :=
  if ftwOk = false then false
  else if strayCount ≠ 0 then false
  else true

def wormhole_auto_profile_tail (ignoreStrayFiles ftwOk : Bool) (strayCount : Nat)
    (writeOk : Bool) : Nat × Bool :=
  if ignoreStrayFiles = false ∧ check_for_stray_files ftwOk strayCount = false then
    (1, false)
  else if writeOk = false then (1, true)
  else (0, true)

/-- C8: with the stray pass not suppressed, a non-zero final stray count
makes the run exit non-zero without ever calling `wormhole_config_write`;
with a completed walk and stray count zero, the configuration write is
reached. -/
theorem auto_profile_stray_gate :
    (∀ (ftwOk : Bool) (strayCount : Nat) (writeOk : Bool), strayCount ≠ 0 →
      (wormhole_auto_profile_tail false ftwOk strayCount writeOk).1 ≠ 0 ∧
      (wormhole_auto_profile_tail false ftwOk strayCount writeOk).2 = false)
    ∧ (∀ (writeOk : Bool),
      (wormhole_auto_profile_tail false true 0 writeOk).2 = true) := by
  constructor
  · intro ftwOk strayCount writeOk hs
    have hchk : check_for_stray_files ftwOk strayCount = false := by
      rw [check_for_stray_files]
      cases ftwOk with
      | false => simp
      | true => simp [hs]
    rw [wormhole_auto_profile_tail, if_pos ⟨rfl, hchk⟩]
    exact ⟨by simp, rfl⟩
  · intro writeOk
    have hchk : check_for_stray_files true 0 = true := by decide
    rw [wormhole_auto_profile_tail]
    rw [if_neg (by simp [hchk])]
    cases writeOk with
    | false => rfl
    | true => rfl

/-- Witness for C8 at concrete inputs: three strays exit non-zero with no
write attempted; zero strays reach the write. -/
theorem auto_profile_stray_gate_witness :
    ((wormhole_auto_profile_tail false true 3 true).1 ≠ 0 ∧
     (wormhole_auto_profile_tail false true 3 true).2 = false) ∧
    (wormhole_auto_profile_tail false true 0 true).2 = true :=
  ⟨auto_profile_stray_gate.1 true 3 true (by decide), auto_profile_stray_gate.2 true⟩

/-! ### config.c (src/unnamed/part_001): configuration text, parser and writer (C2)

The file is modelled as a list of lines (each a `Str`); `fgets` delivers
lines, and `parser_next_word` (part_001:850-884) cuts one line into words:
whitespace is skipped, a NUL or `#` ends the line, a character in
[A-Za-z0-9/_] starts a word running to the next whitespace, and any other
character is a single-character token.  The recursive-descent parser
(part_001:575-818) is rendered as a line-by-line state machine whose mode
records the enclosing block, which is faithful because blocks cannot nest
beyond environment > layer, a block's opening brace must come from the
remainder of its introducing line (later tokens on that line are
discarded, and a missing brace yields an empty block), a line whose first
token starts with a closing brace ends the block, and end of input inside
a block is an error.  The `config` include directive performs filesystem
traversal and is outside this model (the writer never emits it). -/

def isCSpace (c : Char) : Bool :=
  c = ' ' || c = '\t' || c = '\n' || c = '\x0b' || c = '\x0c' || c = '\r'

def isWordStart (c : Char) : Bool :=
  c.isAlphanum || c = '/' || c = '_'

/-- One step of `parser_next_word`, with `acc` the reversed prefix of the
word being read (empty between words). -/
def tokenAux : Str → Str → List Str
  | [], [] => []
  | [], a :: as => [(a :: as).reverse]
  | c :: cs, [] =>
    if isCSpace c then tokenAux cs []
    else if c = '#' || c = '\x00' then []
    else if isWordStart c then tokenAux cs [c]
    else [c] :: tokenAux cs []
  | c :: cs, a :: as =>
    if isCSpace c then (a :: as).reverse :: tokenAux cs []
    else if c = '\x00' then [(a :: as).reverse]
    else tokenAux cs (c :: a :: as)

def tokenizeLine (s : Str) : List Str := tokenAux s []

/-- `struct wormhole_profile_config` (config.h). -/
structure WProfileConfig where
  name : Str
  wrapper : Option Str := none
  command : Option Str := none
  environment : Option Str := none
deriving DecidableEq

/-- `struct wormhole_config` (config.h); `client_path` is accepted by the
parser but never written by the writer and is not tracked here. -/
structure WConfig where
  profiles : List WProfileConfig := []
  environments : List WEnvConfig := []
deriving DecidableEq

def isAbsolutePath : Str → Bool
  | [] => false
  | c :: _ => c = '/'

def startsWithChar (c : Char) : Str → Bool
  | [] => false
  | a :: _ => a = c

/-- `wormhole_config_process_block` reading the block opener from the rest
of the introducing line: no word means an empty block (`some false`), a
token starting with a brace opens the block (`some true`, later tokens of
the line are discarded), anything else is an error. -/
def openBlock (rest : List Str) : Option Bool :=
  match rest with
  | [] => some false
  | t :: _ => if startsWithChar '\x7b' t then some true else none

/-- `__wormhole_config_profile_directive` (part_001:564-578): each
directive takes exactly one argument word. -/
def applyProfileDirective (p : WProfileConfig) (kwd : Str) (args : List Str) :
    Option WProfileConfig :=
  if kwd == "wrapper".toList then
    match args with | [a] => some { p with wrapper := some a } | _ => none
  else if kwd == "command".toList then
    match args with | [a] => some { p with command := some a } | _ => none
  else if kwd == "environment".toList then
    match args with | [a] => some { p with environment := some a } | _ => none
  else none

/-- `___wormhole_config_layer_add_path` + `parser_expect_end_of_line`:
exactly one argument, which must be absolute. -/
def addSimplePath (l : WLayerConfig) (t : WPathType) (args : List Str) :
    Option WLayerConfig :=
  match args with
  | [p] =>
    if isAbsolutePath p then
      some { l with paths := l.paths ++ [{ type := t, path := p }] }
    else none
  | _ => none

/-- `__wormhole_config_layer_add_mount` (part_001:636-681): absolute path
then one to three words: fstype; fstype and options; or fstype, device and
options.  A fourth word fails `parser_expect_end_of_line`. -/
def addMountPath (l : WLayerConfig) (args : List Str) : Option WLayerConfig :=
  match args with
  | [] => none
  | p :: margs =>
    if isAbsolutePath p then
      match margs with
      | [f] => some { l with paths := l.paths ++
          [{ type := .mount, path := p, fstype := some f }] }
      | [f, o] => some { l with paths := l.paths ++
          [{ type := .mount, path := p, fstype := some f, options := some o }] }
      | [f, d, o] => some { l with paths := l.paths ++
          [{ type := .mount, path := p, fstype := some f, device := some d,
             options := some o }] }
      | _ => none
    else none

/-- `__wormhole_config_overlay_directive` (part_001:712-746). -/
def applyOverlayDirective (l : WLayerConfig) (kwd : Str) (args : List Str) :
    Option WLayerConfig :=
  if kwd == "directory".toList then
    match args with | [a] => some { l with directory := some a } | _ => none
  else if kwd == "image".toList then
    match args with | [a] => some { l with image := some a } | _ => none
  else if kwd == "use".toList then
    match args with
    | [a] => if a == "ldconfig".toList then some { l with useLdconfig := true } else none
    | _ => none
  else if kwd == "bind".toList then addSimplePath l .bind args
  else if kwd == "bind-children".toList then addSimplePath l .bindChildren args
  else if kwd == "overlay".toList then addSimplePath l .overlay args
  else if kwd == "overlay-children".toList then addSimplePath l .overlayChildren args
  else if kwd == "mount".toList then addMountPath l args
  else if kwd == "wormhole".toList then addSimplePath l .wormholeCmd args
  else none

/-- Layer-block close: the validation at part_001:760-781 requires exactly
one of `directory` and `image`; then the layer joins the environment. -/
def layerDone (e : WEnvConfig) (l : WLayerConfig) : Option WEnvConfig :=
  if (l.directory.isSome && l.image.isSome) ||
     (l.directory.isNone && l.image.isNone) then none
  else some { e with layers := e.layers ++ [l] }

/-- The enclosing block of the line being read. -/
inductive ParseMode where
  | top
  | inProfile (p : WProfileConfig)
  | inEnv (e : WEnvConfig)
  | inLayer (e : WEnvConfig) (l : WLayerConfig)

/-- The parser loop: `__wormhole_config_process_file` dispatching
`__wormhole_config_toplevel_directive`, with the block modes standing for
the active `wormhole_config_process_block` calls.  Inside an environment,
the obsolete keywords `overlay` and `layer` are mapped to `define-layer`
and `use-environment` (part_001:749-752). -/
def parseLines : List Str → WConfig → ParseMode → Option WConfig
  | [], cfg, .top => some cfg
  | [], _, _ => none
  | line :: rest, cfg, mode =>
    match tokenizeLine line with
    | [] => parseLines rest cfg mode
    | kwd :: args =>
      match mode with
      | .top =>
        if kwd == "profile".toList then
          match args with
          | [] => none
          | name :: argrest =>
            if cfg.profiles.any (fun p => p.name == name) then none
            else
              match openBlock argrest with
              | none => none
              | some false =>
                parseLines rest { cfg with profiles := cfg.profiles ++ [{ name := name }] } .top
              | some true => parseLines rest cfg (.inProfile { name := name })
        else if kwd == "environment".toList then
          match args with
          | [] => none
          | name :: argrest =>
            if cfg.environments.any (fun e => e.name == name) then none
            else
              match openBlock argrest with
              | none => none
              | some false =>
                parseLines rest
                  { cfg with environments := cfg.environments ++ [{ name := name }] } .top
              | some true => parseLines rest cfg (.inEnv { name := name })
        else if kwd == "client-path".toList then
          match args with
          | [_] => parseLines rest cfg .top
          | _ => none
        else none
      | .inProfile p =>
        if startsWithChar '\x7d' kwd then
          parseLines rest { cfg with profiles := cfg.profiles ++ [p] } .top
        else
          match applyProfileDirective p kwd args with
          | none => none
          | some p2 => parseLines rest cfg (.inProfile p2)
      | .inEnv e =>
        if startsWithChar '\x7d' kwd then
          parseLines rest { cfg with environments := cfg.environments ++ [e] } .top
        else
          let kwd2 := if kwd == "overlay".toList then "define-layer".toList
                      else if kwd == "layer".toList then "use-environment".toList
                      else kwd
          if kwd2 == "define-layer".toList then
            match openBlock args with
            | none => none
            | some false => none
            | some true => parseLines rest cfg (.inLayer e { type := .layer })
          else if kwd2 == "define-image".toList then
            match openBlock args with
            | none => none
            | some false => none
            | some true => parseLines rest cfg (.inLayer e { type := .image })
          else if kwd2 == "use-environment".toList then
            match args with
            | [a] => parseLines rest cfg (.inEnv { e with layers := e.layers ++
                [{ type := .reference, lowerLayerName := some a }] })
            | _ => none
          else if kwd2 == "provides".toList then
            match args with
            | [a] => parseLines rest cfg (.inEnv { e with provides := e.provides ++ [a] })
            | _ => none
          else if kwd2 == "requires".toList then
            match args with
            | [a] => parseLines rest cfg (.inEnv { e with requires := e.requires ++ [a] })
            | _ => none
          else none
      | .inLayer e l =>
        if startsWithChar '\x7d' kwd then
          match layerDone e l with
          | none => none
          | some e2 => parseLines rest cfg (.inEnv e2)
        else
          match applyOverlayDirective l kwd args with
          | none => none
          | some l2 => parseLines rest cfg (.inLayer e l2)

/-- `wormhole_config_process_file` on a token stream.  The enclosing
`wormhole_config_load` additionally rewrites a relative layer directory
against the config file's directory, a no-op for the absolute directories
well-formedness demands. -/
def wormhole_config_parse (lines : List Str) : Option WConfig :=
  parseLines lines {} .top

/-! The writer (part_001:957-1105), producing the same line list. -/

/-- `pathinfo_action_to_directive` (part_001:963-993). -/
def pathinfo_action_to_directive : WPathType → Option Str
  | .hide => some "hide".toList
  | .bind => some "bind".toList
  | .bindChildren => some "bind-children".toList
  | .overlay => some "overlay".toList
  | .overlayChildren => some "overlay-children".toList
  | .mount => some "mount".toList
  | .wormholeCmd => some "wormhole".toList

/-- glibc renders a NULL `%s` argument as `(null)`. -/
def strOrNull (o : Option Str) : Str := o.getD "(null)".toList

/-- One path line of the layer writer (part_001:1020-1048); a path type
without a directive would be skipped with `ok = false`, which cannot
happen since every type has one. -/
def writePathLine (pi : WPathInfo) : List Str :=
  match pathinfo_action_to_directive pi.type with
  | none => []
  | some act =>
    match pi.type with
    | .mount =>
      ["\t\t".toList ++ act ++ " ".toList ++ pi.path
        ++ (match pi.fstype with | some f => " ".toList ++ f | none => [])
        ++ (match pi.device with | some d => " ".toList ++ d | none => [])
        ++ (match pi.options with | some o => " ".toList ++ o | none => [])]
    | _ => ["\t\t".toList ++ act ++ " ".toList ++ pi.path]

/-- `__wormhole_layer_config_write` (part_001:995-1053).  A Reference
layer is an error and produces no output.  Note the final two lines: the
layer's closing `\t}` and a second, unindented `}` - the latter is the
brace that should have closed the enclosing environment. -/
def __wormhole_layer_config_write (l : WLayerConfig) : List Str :=
  match l.type with
  | .reference => []
  | t =>
    [(if t = .layer then "\tdefine-layer \x7b" else "\tdefine-image \x7b").toList]
    ++ ["\t\tdirectory ".toList ++ strOrNull l.directory]
    ++ [[]]
    ++ (if l.useLdconfig then ["\t\tuse ldconfig".toList, []] else [])
    ++ l.paths.flatMap writePathLine
    ++ ["\t\x7d".toList]
    ++ ["\x7d".toList]

/-- `__wormhole_environment_config_write` (part_001:1055-1077): header,
provides/requires lines, a blank line if any, then the layers.  It does
not emit a closing brace of its own. -/
def __wormhole_environment_config_write (e : WEnvConfig) : List Str :=
  ["environment ".toList ++ e.name ++ " \x7b".toList]
  ++ e.provides.map (fun p => "\tprovides ".toList ++ p)
  ++ e.requires.map (fun r => "\trequires ".toList ++ r)
  ++ (if e.provides.isEmpty && e.requires.isEmpty then [] else [[]])
  ++ e.layers.flatMap __wormhole_layer_config_write

/-- One profile of `__wormhole_config_write` (part_001:1079-1105). -/
def writeProfileLines (p : WProfileConfig) : List Str :=
  [[]]
  ++ ["profile ".toList ++ p.name ++ " \x7b".toList]
  ++ (match p.wrapper with | some w => ["\twrapper ".toList ++ w] | none => [])
  ++ (match p.environment with | some e => ["\tenvironment ".toList ++ e] | none => [])
  ++ (match p.command with | some c => ["\tcommand ".toList ++ c] | none => [])
  ++ ["\x7d".toList]

/-- `__wormhole_config_write` (part_001:1079-1105): all environments, then
all profiles. -/
def __wormhole_config_write (cfg : WConfig) : List Str :=
  cfg.environments.flatMap __wormhole_environment_config_write
  ++ cfg.profiles.flatMap writeProfileLines

/-! Well-formedness: the conditions under which the written text parses
back to the same value. -/

/-- A value the writer prints as one `%s` that must come back as a single
parser word: non-empty, no whitespace or NUL anywhere, first character in
[A-Za-z0-9/_]. -/
def goodWord (w : Str) : Bool :=
  match w with
  | [] => false
  | c :: cs => isWordStart c && (c :: cs).all (fun x => !isCSpace x && x ≠ '\x00')

def wfPath (pi : WPathInfo) : Bool :=
  match pi.type with
  | .hide => false
  | .mount =>
    goodWord pi.path && isAbsolutePath pi.path &&
    (match pi.fstype, pi.device, pi.options with
     | some f, none, none => goodWord f
     | some f, none, some o => goodWord f && goodWord o
     | some f, some d, some o => goodWord f && goodWord d && goodWord o
     | _, _, _ => false)
  | _ => goodWord pi.path && isAbsolutePath pi.path
         && pi.fstype.isNone && pi.device.isNone && pi.options.isNone

def wfLayer (l : WLayerConfig) : Bool :=
  (match l.type with
   | .reference => false
   | _ => true)
  && (match l.directory, l.image with
      | some d, none => goodWord d && isAbsolutePath d
      | _, _ => false)
  && l.lowerLayerName.isNone
  && l.paths.all wfPath

def wfEnv (e : WEnvConfig) : Bool :=
  goodWord e.name
  && e.provides.all goodWord
  && e.requires.all goodWord
  && (match e.layers with
      | [l] => wfLayer l
      | _ => false)

def wfProfile (p : WProfileConfig) : Bool :=
  goodWord p.name
  && p.wrapper.all goodWord
  && p.command.all goodWord
  && p.environment.all goodWord

def wfConfig (cfg : WConfig) : Bool :=
  cfg.environments.all wfEnv
  && cfg.profiles.all wfProfile
  && (cfg.environments.map (fun e => e.name)).Nodup
  && (cfg.profiles.map (fun p => p.name)).Nodup

theorem isWordStart_facts {c : Char} (h : isWordStart c = true) :
    isCSpace c = false ∧ c ≠ '#' ∧ c ≠ '\x00' := by
  refine ⟨?_, ?_, ?_⟩
  · cases hsp : isCSpace c with
    | false => rfl
    | true =>
      exfalso
      simp only [isCSpace, Bool.or_eq_true, decide_eq_true_eq] at hsp
      rcases hsp with ((((rfl | rfl) | rfl) | rfl) | rfl) | rfl <;> exact absurd h (by decide)
  · intro hc; subst hc; exact absurd h (by decide)
  · intro hc; subst hc; exact absurd h (by decide)

theorem goodWord_elim {w : Str} (h : goodWord w = true) :
    ∃ c cs, w = c :: cs ∧ isWordStart c = true ∧
      ∀ x ∈ w, isCSpace x = false ∧ x ≠ '\x00' := by
  match w with
  | [] => exact absurd h (by simp [goodWord])
  | c :: cs =>
    simp only [goodWord, Bool.and_eq_true, List.all_eq_true, Bool.not_eq_true',
      decide_eq_true_eq] at h
    exact ⟨c, cs, rfl, h.1, fun x hx => ⟨(h.2 x hx).1, (h.2 x hx).2⟩⟩

theorem tokenAux_mid (w : Str) (rest : Str) :
    ∀ (a : Char) (as : Str), (∀ x ∈ w, isCSpace x = false ∧ x ≠ '\x00') →
    tokenAux (w ++ rest) (a :: as) = tokenAux rest (w.reverse ++ (a :: as)) := by
  induction w with
  | nil => intro a as _; simp
  | cons c cs ih =>
    intro a as hw
    have hc := hw c (List.mem_cons_self c cs)
    have hcs : ∀ x ∈ cs, isCSpace x = false ∧ x ≠ '\x00' :=
      fun x hx => hw x (List.mem_cons_of_mem c hx)
    simp only [List.cons_append, List.append_eq, tokenAux]
    rw [if_neg (by simp [hc.1]), if_neg (by simp [hc.2])]
    rw [ih c (a :: as) hcs]
    simp

theorem tokenizeWord_space (w r : Str) (hw : goodWord w = true) :
    tokenAux (w ++ ' ' :: r) [] = w :: tokenAux r [] := by
  obtain ⟨c, cs, rfl, hst, hall⟩ := goodWord_elim hw
  obtain ⟨hsp, hhash, hnul⟩ := isWordStart_facts hst
  have hcs : ∀ x ∈ cs, isCSpace x = false ∧ x ≠ '\x00' :=
    fun x hx => hall x (List.mem_cons_of_mem c hx)
  simp only [List.cons_append, List.append_eq, tokenAux]
  rw [if_neg (by simp [hsp]), if_neg (by simp [hhash, hnul]), if_pos hst]
  rw [tokenAux_mid cs (' ' :: r) c [] hcs]
  rcases hex : cs.reverse ++ [c] with _ | ⟨a, as⟩
  · exact absurd hex (by simp)
  · simp only [tokenAux]
    rw [if_pos (by decide)]
    have hrv : (a :: as).reverse = c :: cs := by
      rw [← hex]; simp
    rw [hrv]

theorem tokenizeWord_end (w : Str) (hw : goodWord w = true) :
    tokenAux w [] = [w] := by
  obtain ⟨c, cs, rfl, hst, hall⟩ := goodWord_elim hw
  obtain ⟨hsp, hhash, hnul⟩ := isWordStart_facts hst
  have hcs : ∀ x ∈ cs, isCSpace x = false ∧ x ≠ '\x00' :=
    fun x hx => hall x (List.mem_cons_of_mem c hx)
  have hsplit : (c :: cs : Str) = (c :: cs) ++ [] := by simp
  rw [hsplit]
  simp only [List.cons_append, List.append_eq, tokenAux]
  rw [if_neg (by simp [hsp]), if_neg (by simp [hhash, hnul]), if_pos hst]
  rw [tokenAux_mid cs [] c [] hcs]
  rcases hex : cs.reverse ++ [c] with _ | ⟨a, as⟩
  · exact absurd hex (by simp)
  · simp only [tokenAux]
    have hrv : (a :: as).reverse = c :: cs := by
      rw [← hex]; simp
    rw [hrv]
    simp

theorem tok_kw_arg (kw a : Str) (hk : goodWord kw = true) (ha : goodWord a = true) :
    tokenAux (kw ++ ' ' :: a) [] = [kw, a] := by
  rw [tokenizeWord_space kw a hk, tokenizeWord_end a ha]

theorem tok_head3 (kw name : Str) (hk : goodWord kw = true) (hn : goodWord name = true) :
    tokenAux (kw ++ ' ' :: (name ++ ' ' :: ['\x7b'])) [] = [kw, name, ['\x7b']] := by
  rw [tokenizeWord_space kw _ hk, tokenizeWord_space name _ hn]
  rfl

theorem tok_env_header (name : Str) (hn : goodWord name = true) :
    tokenizeLine ("environment ".toList ++ name ++ " \x7b".toList) =
      ["environment".toList, name, ['\x7b']] := by
  have hsh : "environment ".toList ++ name ++ " \x7b".toList =
      "environment".toList ++ ' ' :: (name ++ ' ' :: ['\x7b']) := by
    show ("environment".toList ++ [' ']) ++ name ++ ([' '] ++ ['\x7b']) = _
    simp
  rw [hsh]
  exact tok_head3 "environment".toList name (by decide) hn

theorem tok_profile_header (name : Str) (hn : goodWord name = true) :
    tokenizeLine ("profile ".toList ++ name ++ " \x7b".toList) =
      ["profile".toList, name, ['\x7b']] := by
  have hsh : "profile ".toList ++ name ++ " \x7b".toList =
      "profile".toList ++ ' ' :: (name ++ ' ' :: ['\x7b']) := by
    show ("profile".toList ++ [' ']) ++ name ++ ([' '] ++ ['\x7b']) = _
    simp
  rw [hsh]
  exact tok_head3 "profile".toList name (by decide) hn

theorem tok_dir_line (d : Str) (hd : goodWord d = true) :
    tokenizeLine ("\t\tdirectory ".toList ++ d) = ["directory".toList, d] := by
  show tokenAux ("directory".toList ++ ' ' :: d) [] = ["directory".toList, d]
  exact tok_kw_arg "directory".toList d (by decide) hd

theorem tok_provides_line (p : Str) (hp : goodWord p = true) :
    tokenizeLine ("\tprovides ".toList ++ p) = ["provides".toList, p] := by
  show tokenAux ("provides".toList ++ ' ' :: p) [] = ["provides".toList, p]
  exact tok_kw_arg "provides".toList p (by decide) hp

theorem tok_requires_line (r : Str) (hr : goodWord r = true) :
    tokenizeLine ("\trequires ".toList ++ r) = ["requires".toList, r] := by
  show tokenAux ("requires".toList ++ ' ' :: r) [] = ["requires".toList, r]
  exact tok_kw_arg "requires".toList r (by decide) hr

theorem tok_wrapper_line (w : Str) (hw : goodWord w = true) :
    tokenizeLine ("\twrapper ".toList ++ w) = ["wrapper".toList, w] := by
  show tokenAux ("wrapper".toList ++ ' ' :: w) [] = ["wrapper".toList, w]
  exact tok_kw_arg "wrapper".toList w (by decide) hw

theorem tok_penv_line (w : Str) (hw : goodWord w = true) :
    tokenizeLine ("\tenvironment ".toList ++ w) = ["environment".toList, w] := by
  show tokenAux ("environment".toList ++ ' ' :: w) [] = ["environment".toList, w]
  exact tok_kw_arg "environment".toList w (by decide) hw

theorem tok_command_line (w : Str) (hw : goodWord w = true) :
    tokenizeLine ("\tcommand ".toList ++ w) = ["command".toList, w] := by
  show tokenAux ("command".toList ++ ' ' :: w) [] = ["command".toList, w]
  exact tok_kw_arg "command".toList w (by decide) hw

theorem tok_act_path (act p : Str) (ha : goodWord act = true) (hp : goodWord p = true) :
    tokenizeLine ("\t\t".toList ++ act ++ " ".toList ++ p) = [act, p] := by
  have hsh : "\t\t".toList ++ act ++ " ".toList ++ p = '\t' :: '\t' :: (act ++ ' ' :: p) := by
    show ((['\t', '\t'] ++ act) ++ [' ']) ++ p = _
    simp
  rw [hsh]
  show tokenAux (act ++ ' ' :: p) [] = [act, p]
  exact tok_kw_arg act p ha hp

theorem tok_act_path2 (act p f : Str) (ha : goodWord act = true)
    (hp : goodWord p = true) (hf : goodWord f = true) :
    tokenizeLine ("\t\t".toList ++ act ++ " ".toList ++ p ++ (" ".toList ++ f)) =
      [act, p, f] := by
  have hsh : "\t\t".toList ++ act ++ " ".toList ++ p ++ (" ".toList ++ f) =
      '\t' :: '\t' :: (act ++ ' ' :: (p ++ ' ' :: f)) := by
    show (((['\t', '\t'] ++ act) ++ [' ']) ++ p) ++ ([' '] ++ f) = _
    simp
  rw [hsh]
  show tokenAux (act ++ ' ' :: (p ++ ' ' :: f)) [] = [act, p, f]
  rw [tokenizeWord_space act _ ha, tokenizeWord_space p _ hp, tokenizeWord_end f hf]

theorem tok_act_path3 (act p f o : Str) (ha : goodWord act = true)
    (hp : goodWord p = true) (hf : goodWord f = true) (ho : goodWord o = true) :
    tokenizeLine ("\t\t".toList ++ act ++ " ".toList ++ p ++ (" ".toList ++ f)
        ++ (" ".toList ++ o)) = [act, p, f, o] := by
  have hsh : "\t\t".toList ++ act ++ " ".toList ++ p ++ (" ".toList ++ f)
        ++ (" ".toList ++ o) =
      '\t' :: '\t' :: (act ++ ' ' :: (p ++ ' ' :: (f ++ ' ' :: o))) := by
    show ((((['\t', '\t'] ++ act) ++ [' ']) ++ p) ++ ([' '] ++ f)) ++ ([' '] ++ o) = _
    simp
  rw [hsh]
  show tokenAux (act ++ ' ' :: (p ++ ' ' :: (f ++ ' ' :: o))) [] = [act, p, f, o]
  rw [tokenizeWord_space act _ ha, tokenizeWord_space p _ hp,
    tokenizeWord_space f _ hf, tokenizeWord_end o ho]

theorem tok_act_path4 (act p f d o : Str) (ha : goodWord act = true)
    (hp : goodWord p = true) (hf : goodWord f = true) (hd : goodWord d = true)
    (ho : goodWord o = true) :
    tokenizeLine ("\t\t".toList ++ act ++ " ".toList ++ p ++ (" ".toList ++ f)
        ++ (" ".toList ++ d) ++ (" ".toList ++ o)) = [act, p, f, d, o] := by
  have hsh : "\t\t".toList ++ act ++ " ".toList ++ p ++ (" ".toList ++ f)
        ++ (" ".toList ++ d) ++ (" ".toList ++ o) =
      '\t' :: '\t' :: (act ++ ' ' :: (p ++ ' ' :: (f ++ ' ' :: (d ++ ' ' :: o)))) := by
    show (((((['\t', '\t'] ++ act) ++ [' ']) ++ p) ++ ([' '] ++ f)) ++ ([' '] ++ d))
        ++ ([' '] ++ o) = _
    simp
  rw [hsh]
  show tokenAux (act ++ ' ' :: (p ++ ' ' :: (f ++ ' ' :: (d ++ ' ' :: o)))) [] =
    [act, p, f, d, o]
  rw [tokenizeWord_space act _ ha, tokenizeWord_space p _ hp,
    tokenizeWord_space f _ hf, tokenizeWord_space d _ hd, tokenizeWord_end o ho]

theorem parseLines_blank (rest : List Str) (cfg : WConfig) (mode : ParseMode) :
    parseLines ([] :: rest) cfg mode = parseLines rest cfg mode := rfl

theorem parseLines_layer_directive (line : Str) (rest : List Str) (cfg : WConfig)
    (e : WEnvConfig) (l : WLayerConfig) (kwd : Str) (args : List Str)
    (htok : tokenizeLine line = kwd :: args)
    (hbr : startsWithChar '\x7d' kwd = false) :
    parseLines (line :: rest) cfg (.inLayer e l) =
      (match applyOverlayDirective l kwd args with
       | none => none
       | some l2 => parseLines rest cfg (.inLayer e l2)) := by
  simp only [parseLines]
  rw [htok]
  simp [hbr]

theorem parseLines_layer_close (line : Str) (rest : List Str) (cfg : WConfig)
    (e : WEnvConfig) (l : WLayerConfig) (htok : tokenizeLine line = [['\x7d']]) :
    parseLines (line :: rest) cfg (.inLayer e l) =
      (match layerDone e l with
       | none => none
       | some e2 => parseLines rest cfg (.inEnv e2)) := by
  simp only [parseLines]
  rw [htok]
  rfl

theorem parseLines_env_close (line : Str) (rest : List Str) (cfg : WConfig)
    (e : WEnvConfig) (htok : tokenizeLine line = [['\x7d']]) :
    parseLines (line :: rest) cfg (.inEnv e) =
      parseLines rest { cfg with environments := cfg.environments ++ [e] } .top := by
  simp only [parseLines]
  rw [htok]
  rfl

theorem parseLines_profile_close (line : Str) (rest : List Str) (cfg : WConfig)
    (p : WProfileConfig) (htok : tokenizeLine line = [['\x7d']]) :
    parseLines (line :: rest) cfg (.inProfile p) =
      parseLines rest { cfg with profiles := cfg.profiles ++ [p] } .top := by
  simp only [parseLines]
  rw [htok]
  rfl

theorem parse_provides_line (p : Str) (rest : List Str) (cfg : WConfig) (e : WEnvConfig)
    (hp : goodWord p = true) :
    parseLines (("\tprovides ".toList ++ p) :: rest) cfg (.inEnv e) =
      parseLines rest cfg (.inEnv { e with provides := e.provides ++ [p] }) := by
  simp only [parseLines]
  rw [tok_provides_line p hp]
  rfl

theorem parse_requires_line (r : Str) (rest : List Str) (cfg : WConfig) (e : WEnvConfig)
    (hr : goodWord r = true) :
    parseLines (("\trequires ".toList ++ r) :: rest) cfg (.inEnv e) =
      parseLines rest cfg (.inEnv { e with requires := e.requires ++ [r] }) := by
  simp only [parseLines]
  rw [tok_requires_line r hr]
  rfl

theorem parse_provides_lines (ps : List Str) :
    ∀ (rest : List Str) (cfg : WConfig) (e : WEnvConfig), ps.all goodWord = true →
    parseLines (ps.map (fun p => "\tprovides ".toList ++ p) ++ rest) cfg (.inEnv e) =
      parseLines rest cfg (.inEnv { e with provides := e.provides ++ ps }) := by
  induction ps with
  | nil => intro rest cfg e _; simp
  | cons p ps ih =>
    intro rest cfg e hall
    simp only [List.all_cons, Bool.and_eq_true] at hall
    simp only [List.map_cons, List.cons_append]
    rw [parse_provides_line p _ cfg e hall.1, ih _ cfg _ hall.2]
    simp

theorem parse_requires_lines (rs : List Str) :
    ∀ (rest : List Str) (cfg : WConfig) (e : WEnvConfig), rs.all goodWord = true →
    parseLines (rs.map (fun r => "\trequires ".toList ++ r) ++ rest) cfg (.inEnv e) =
      parseLines rest cfg (.inEnv { e with requires := e.requires ++ rs }) := by
  induction rs with
  | nil => intro rest cfg e _; simp
  | cons r rs ih =>
    intro rest cfg e hall
    simp only [List.all_cons, Bool.and_eq_true] at hall
    simp only [List.map_cons, List.cons_append]
    rw [parse_requires_line r _ cfg e hall.1, ih _ cfg _ hall.2]
    simp

theorem parse_path_lines (pis : List WPathInfo) :
    ∀ (rest : List Str) (cfg : WConfig) (e : WEnvConfig) (l : WLayerConfig),
      pis.all wfPath = true →
      parseLines (pis.flatMap writePathLine ++ rest) cfg (.inLayer e l) =
      parseLines rest cfg (.inLayer e { l with paths := l.paths ++ pis }) := by
  induction pis with
  | nil => intro rest cfg e l _; simp
  | cons pi pis ih =>
    intro rest cfg e l hall
    simp only [List.all_cons, Bool.and_eq_true] at hall
    obtain ⟨hpi, hrest⟩ := hall
    obtain ⟨t, p, f, d, o⟩ := pi
    cases t with
    | hide => exact absurd hpi (by simp [wfPath])
    | bind =>
      simp only [wfPath, Bool.and_eq_true, Option.isNone_iff_eq_none] at hpi
      obtain ⟨⟨⟨⟨hp, habs⟩, hf⟩, hd⟩, ho⟩ := hpi
      subst hf; subst hd; subst ho
      have hw : writePathLine ⟨.bind, p, none, none, none⟩ =
          ["\t\t".toList ++ "bind".toList ++ " ".toList ++ p] := rfl
      have hsplit : (⟨.bind, p, none, none, none⟩ :: pis).flatMap writePathLine ++ rest =
          ("\t\t".toList ++ "bind".toList ++ " ".toList ++ p)
            :: (pis.flatMap writePathLine ++ rest) := by
        simp [hw]
      rw [hsplit]
      rw [parseLines_layer_directive _ _ _ _ _ _ _
        (tok_act_path "bind".toList p (by decide) hp) (by decide)]
      have happ : applyOverlayDirective l "bind".toList [p] =
          some { l with paths := l.paths ++ [⟨.bind, p, none, none, none⟩] } := by
        show addSimplePath l .bind [p] = _
        simp [addSimplePath, habs]
      rw [happ]
      show parseLines (pis.flatMap writePathLine ++ rest) cfg
          (.inLayer e { l with paths := l.paths ++ [⟨.bind, p, none, none, none⟩] }) = _
      rw [ih _ cfg e _ hrest]
      simp
    | bindChildren =>
      simp only [wfPath, Bool.and_eq_true, Option.isNone_iff_eq_none] at hpi
      obtain ⟨⟨⟨⟨hp, habs⟩, hf⟩, hd⟩, ho⟩ := hpi
      subst hf; subst hd; subst ho
      have hw : writePathLine ⟨.bindChildren, p, none, none, none⟩ =
          ["\t\t".toList ++ "bind-children".toList ++ " ".toList ++ p] := rfl
      have hsplit : (⟨.bindChildren, p, none, none, none⟩ :: pis).flatMap writePathLine ++ rest =
          ("\t\t".toList ++ "bind-children".toList ++ " ".toList ++ p)
            :: (pis.flatMap writePathLine ++ rest) := by
        simp [hw]
      rw [hsplit]
      rw [parseLines_layer_directive _ _ _ _ _ _ _
        (tok_act_path "bind-children".toList p (by decide) hp) (by decide)]
      have happ : applyOverlayDirective l "bind-children".toList [p] =
          some { l with paths := l.paths ++ [⟨.bindChildren, p, none, none, none⟩] } := by
        show addSimplePath l .bindChildren [p] = _
        simp [addSimplePath, habs]
      rw [happ]
      show parseLines (pis.flatMap writePathLine ++ rest) cfg
          (.inLayer e { l with paths := l.paths ++ [⟨.bindChildren, p, none, none, none⟩] }) = _
      rw [ih _ cfg e _ hrest]
      simp
    | overlay =>
      simp only [wfPath, Bool.and_eq_true, Option.isNone_iff_eq_none] at hpi
      obtain ⟨⟨⟨⟨hp, habs⟩, hf⟩, hd⟩, ho⟩ := hpi
      subst hf; subst hd; subst ho
      have hw : writePathLine ⟨.overlay, p, none, none, none⟩ =
          ["\t\t".toList ++ "overlay".toList ++ " ".toList ++ p] := rfl
      have hsplit : (⟨.overlay, p, none, none, none⟩ :: pis).flatMap writePathLine ++ rest =
          ("\t\t".toList ++ "overlay".toList ++ " ".toList ++ p)
            :: (pis.flatMap writePathLine ++ rest) := by
        simp [hw]
      rw [hsplit]
      rw [parseLines_layer_directive _ _ _ _ _ _ _
        (tok_act_path "overlay".toList p (by decide) hp) (by decide)]
      have happ : applyOverlayDirective l "overlay".toList [p] =
          some { l with paths := l.paths ++ [⟨.overlay, p, none, none, none⟩] } := by
        show addSimplePath l .overlay [p] = _
        simp [addSimplePath, habs]
      rw [happ]
      show parseLines (pis.flatMap writePathLine ++ rest) cfg
          (.inLayer e { l with paths := l.paths ++ [⟨.overlay, p, none, none, none⟩] }) = _
      rw [ih _ cfg e _ hrest]
      simp
    | overlayChildren =>
      simp only [wfPath, Bool.and_eq_true, Option.isNone_iff_eq_none] at hpi
      obtain ⟨⟨⟨⟨hp, habs⟩, hf⟩, hd⟩, ho⟩ := hpi
      subst hf; subst hd; subst ho
      have hw : writePathLine ⟨.overlayChildren, p, none, none, none⟩ =
          ["\t\t".toList ++ "overlay-children".toList ++ " ".toList ++ p] := rfl
      have hsplit : (⟨.overlayChildren, p, none, none, none⟩ :: pis).flatMap writePathLine ++ rest =
          ("\t\t".toList ++ "overlay-children".toList ++ " ".toList ++ p)
            :: (pis.flatMap writePathLine ++ rest) := by
        simp [hw]
      rw [hsplit]
      rw [parseLines_layer_directive _ _ _ _ _ _ _
        (tok_act_path "overlay-children".toList p (by decide) hp) (by decide)]
      have happ : applyOverlayDirective l "overlay-children".toList [p] =
          some { l with paths := l.paths ++ [⟨.overlayChildren, p, none, none, none⟩] } := by
        show addSimplePath l .overlayChildren [p] = _
        simp [addSimplePath, habs]
      rw [happ]
      show parseLines (pis.flatMap writePathLine ++ rest) cfg
          (.inLayer e { l with paths := l.paths ++ [⟨.overlayChildren, p, none, none, none⟩] }) = _
      rw [ih _ cfg e _ hrest]
      simp
    | wormholeCmd =>
      simp only [wfPath, Bool.and_eq_true, Option.isNone_iff_eq_none] at hpi
      obtain ⟨⟨⟨⟨hp, habs⟩, hf⟩, hd⟩, ho⟩ := hpi
      subst hf; subst hd; subst ho
      have hw : writePathLine ⟨.wormholeCmd, p, none, none, none⟩ =
          ["\t\t".toList ++ "wormhole".toList ++ " ".toList ++ p] := rfl
      have hsplit : (⟨.wormholeCmd, p, none, none, none⟩ :: pis).flatMap writePathLine ++ rest =
          ("\t\t".toList ++ "wormhole".toList ++ " ".toList ++ p)
            :: (pis.flatMap writePathLine ++ rest) := by
        simp [hw]
      rw [hsplit]
      rw [parseLines_layer_directive _ _ _ _ _ _ _
        (tok_act_path "wormhole".toList p (by decide) hp) (by decide)]
      have happ : applyOverlayDirective l "wormhole".toList [p] =
          some { l with paths := l.paths ++ [⟨.wormholeCmd, p, none, none, none⟩] } := by
        show addSimplePath l .wormholeCmd [p] = _
        simp [addSimplePath, habs]
      rw [happ]
      show parseLines (pis.flatMap writePathLine ++ rest) cfg
          (.inLayer e { l with paths := l.paths ++ [⟨.wormholeCmd, p, none, none, none⟩] }) = _
      rw [ih _ cfg e _ hrest]
      simp
    | mount =>
      simp only [wfPath, Bool.and_eq_true] at hpi
      obtain ⟨⟨hp, habs⟩, hm⟩ := hpi
      match f, d, o, hm with
      | some f, none, none, hm =>
        have hf : goodWord f = true := by simpa using hm
        have hw : writePathLine ⟨.mount, p, some f, none, none⟩ =
            ["\t\t".toList ++ "mount".toList ++ " ".toList ++ p ++ (" ".toList ++ f) ++ [] ++ []] := rfl
        have hsplit : (⟨.mount, p, some f, none, none⟩ :: pis).flatMap writePathLine ++ rest =
            ("\t\t".toList ++ "mount".toList ++ " ".toList ++ p ++ (" ".toList ++ f))
              :: (pis.flatMap writePathLine ++ rest) := by
          simp [hw]
        rw [hsplit]
        rw [parseLines_layer_directive _ _ _ _ _ _ _
          (tok_act_path2 "mount".toList p f (by decide) hp hf) (by decide)]
        have happ : applyOverlayDirective l "mount".toList [p, f] =
            some { l with paths := l.paths ++ [⟨.mount, p, some f, none, none⟩] } := by
          show addMountPath l [p, f] = _
          simp [addMountPath, habs]
        rw [happ]
        show parseLines (pis.flatMap writePathLine ++ rest) cfg
            (.inLayer e { l with paths := l.paths ++ [⟨.mount, p, some f, none, none⟩] }) = _
        rw [ih _ cfg e _ hrest]
        simp
      | some f, none, some o, hm =>
        have hfo : goodWord f = true ∧ goodWord o = true := by simpa using hm
        have hw : writePathLine ⟨.mount, p, some f, none, some o⟩ =
            ["\t\t".toList ++ "mount".toList ++ " ".toList ++ p ++ (" ".toList ++ f) ++ [] ++ (" ".toList ++ o)] := rfl
        have hsplit : (⟨.mount, p, some f, none, some o⟩ :: pis).flatMap writePathLine ++ rest =
            ("\t\t".toList ++ "mount".toList ++ " ".toList ++ p ++ (" ".toList ++ f) ++ (" ".toList ++ o))
              :: (pis.flatMap writePathLine ++ rest) := by
          simp [hw]
        rw [hsplit]
        rw [parseLines_layer_directive _ _ _ _ _ _ _
          (tok_act_path3 "mount".toList p f o (by decide) hp hfo.1 hfo.2) (by decide)]
        have happ : applyOverlayDirective l "mount".toList [p, f, o] =
            some { l with paths := l.paths ++ [⟨.mount, p, some f, none, some o⟩] } := by
          show addMountPath l [p, f, o] = _
          simp [addMountPath, habs]
        rw [happ]
        show parseLines (pis.flatMap writePathLine ++ rest) cfg
            (.inLayer e { l with paths := l.paths ++ [⟨.mount, p, some f, none, some o⟩] }) = _
        rw [ih _ cfg e _ hrest]
        simp
      | some f, some d, some o, hm =>
        have hfdo : (goodWord f = true ∧ goodWord d = true) ∧ goodWord o = true := by
          simpa [and_assoc] using hm
        have hw : writePathLine ⟨.mount, p, some f, some d, some o⟩ =
            ["\t\t".toList ++ "mount".toList ++ " ".toList ++ p ++ (" ".toList ++ f) ++ (" ".toList ++ d) ++ (" ".toList ++ o)] := rfl
        have hsplit : (⟨.mount, p, some f, some d, some o⟩ :: pis).flatMap writePathLine ++ rest =
            ("\t\t".toList ++ "mount".toList ++ " ".toList ++ p ++ (" ".toList ++ f) ++ (" ".toList ++ d) ++ (" ".toList ++ o))
              :: (pis.flatMap writePathLine ++ rest) := by
          simp [hw]
        rw [hsplit]
        rw [parseLines_layer_directive _ _ _ _ _ _ _
          (tok_act_path4 "mount".toList p f d o (by decide) hp hfdo.1.1 hfdo.1.2 hfdo.2) (by decide)]
        have happ : applyOverlayDirective l "mount".toList [p, f, d, o] =
            some { l with paths := l.paths ++ [⟨.mount, p, some f, some d, some o⟩] } := by
          show addMountPath l [p, f, d, o] = _
          simp [addMountPath, habs]
        rw [happ]
        show parseLines (pis.flatMap writePathLine ++ rest) cfg
            (.inLayer e { l with paths := l.paths ++ [⟨.mount, p, some f, some d, some o⟩] }) = _
        rw [ih _ cfg e _ hrest]
        simp

theorem parse_layer_opener (rest : List Str) (cfg : WConfig) (e : WEnvConfig) :
    parseLines ("\tdefine-layer \x7b".toList :: rest) cfg (.inEnv e) =
      parseLines rest cfg (.inLayer e { type := .layer }) := by
  simp only [parseLines]
  rw [show tokenizeLine "\tdefine-layer \x7b".toList =
    ["define-layer".toList, ['\x7b']] from by decide]
  rfl

theorem parse_image_opener (rest : List Str) (cfg : WConfig) (e : WEnvConfig) :
    parseLines ("\tdefine-image \x7b".toList :: rest) cfg (.inEnv e) =
      parseLines rest cfg (.inLayer e { type := .image }) := by
  simp only [parseLines]
  rw [show tokenizeLine "\tdefine-image \x7b".toList =
    ["define-image".toList, ['\x7b']] from by decide]
  rfl

theorem parse_dir_line (d : Str) (rest : List Str) (cfg : WConfig) (e : WEnvConfig)
    (l : WLayerConfig) (hd : goodWord d = true) :
    parseLines (("\t\tdirectory ".toList ++ d) :: rest) cfg (.inLayer e l) =
      parseLines rest cfg (.inLayer e { l with directory := some d }) := by
  rw [parseLines_layer_directive _ _ _ _ _ _ _ (tok_dir_line d hd) (by decide)]
  rfl

theorem parse_use_line (rest : List Str) (cfg : WConfig) (e : WEnvConfig)
    (l : WLayerConfig) :
    parseLines ("\t\tuse ldconfig".toList :: rest) cfg (.inLayer e l) =
      parseLines rest cfg (.inLayer e { l with useLdconfig := true }) := by
  rw [parseLines_layer_directive _ _ _ _ _ _ _
    (show tokenizeLine "\t\tuse ldconfig".toList = ["use".toList, "ldconfig".toList]
      from by decide) (by decide)]
  rfl

theorem parse_rbrace_env (rest : List Str) (cfg : WConfig) (e : WEnvConfig) :
    parseLines ("\x7d".toList :: rest) cfg (.inEnv e) =
      parseLines rest { cfg with environments := cfg.environments ++ [e] } .top :=
  parseLines_env_close _ _ _ _ (by decide)

theorem parse_rbrace_profile (rest : List Str) (cfg : WConfig) (p : WProfileConfig) :
    parseLines ("\x7d".toList :: rest) cfg (.inProfile p) =
      parseLines rest { cfg with profiles := cfg.profiles ++ [p] } .top :=
  parseLines_profile_close _ _ _ _ (by decide)

theorem parse_layer_block (l : WLayerConfig) (rest : List Str) (cfg : WConfig)
    (e : WEnvConfig) (hl : wfLayer l = true) :
    parseLines (__wormhole_layer_config_write l ++ rest) cfg (.inEnv e) =
      parseLines rest { cfg with environments := cfg.environments ++
        [{ e with layers := e.layers ++ [l] }] } .top := by
  obtain ⟨t, dOpt, iOpt, lOpt, b, ps⟩ := l
  simp only [wfLayer, Bool.and_eq_true, Option.isNone_iff_eq_none] at hl
  obtain ⟨⟨⟨ht, hdi⟩, hlo⟩, hps⟩ := hl
  subst hlo
  match dOpt, iOpt, hdi with
  | some d, none, hdi =>
    have hd : goodWord d = true := by
      simp only [Bool.and_eq_true] at hdi
      exact hdi.1
    cases t with
    | reference => exact absurd ht (by simp)
    | layer =>
      cases b with
      | false =>
        have hsplit : __wormhole_layer_config_write
              ⟨.layer, some d, none, none, false, ps⟩ ++ rest =
            "\tdefine-layer \x7b".toList :: ("\t\tdirectory ".toList ++ d) :: [] ::
              (ps.flatMap writePathLine ++
                ("\t\x7d".toList :: "\x7d".toList :: rest)) := by
          simp [__wormhole_layer_config_write, strOrNull]
        rw [hsplit, parse_layer_opener, parse_dir_line d _ cfg e _ hd, parseLines_blank,
          parse_path_lines ps _ cfg e _ hps]
        rw [parseLines_layer_close _ _ _ _ _ (by decide)]
        show parseLines ("\x7d".toList :: rest) cfg
          (.inEnv { e with layers := e.layers ++ [⟨.layer, some d, none, none, false, ps⟩] }) = _
        rw [parse_rbrace_env]
      | true =>
        have hsplit : __wormhole_layer_config_write
              ⟨.layer, some d, none, none, true, ps⟩ ++ rest =
            "\tdefine-layer \x7b".toList :: ("\t\tdirectory ".toList ++ d) :: [] ::
              "\t\tuse ldconfig".toList :: [] ::
              (ps.flatMap writePathLine ++
                ("\t\x7d".toList :: "\x7d".toList :: rest)) := by
          simp [__wormhole_layer_config_write, strOrNull]
        rw [hsplit, parse_layer_opener, parse_dir_line d _ cfg e _ hd, parseLines_blank,
          parse_use_line, parseLines_blank, parse_path_lines ps _ cfg e _ hps]
        rw [parseLines_layer_close _ _ _ _ _ (by decide)]
        show parseLines ("\x7d".toList :: rest) cfg
          (.inEnv { e with layers := e.layers ++ [⟨.layer, some d, none, none, true, ps⟩] }) = _
        rw [parse_rbrace_env]
    | image =>
      cases b with
      | false =>
        have hsplit : __wormhole_layer_config_write
              ⟨.image, some d, none, none, false, ps⟩ ++ rest =
            "\tdefine-image \x7b".toList :: ("\t\tdirectory ".toList ++ d) :: [] ::
              (ps.flatMap writePathLine ++
                ("\t\x7d".toList :: "\x7d".toList :: rest)) := by
          simp [__wormhole_layer_config_write, strOrNull]
        rw [hsplit, parse_image_opener, parse_dir_line d _ cfg e _ hd, parseLines_blank,
          parse_path_lines ps _ cfg e _ hps]
        rw [parseLines_layer_close _ _ _ _ _ (by decide)]
        show parseLines ("\x7d".toList :: rest) cfg
          (.inEnv { e with layers := e.layers ++ [⟨.image, some d, none, none, false, ps⟩] }) = _
        rw [parse_rbrace_env]
      | true =>
        have hsplit : __wormhole_layer_config_write
              ⟨.image, some d, none, none, true, ps⟩ ++ rest =
            "\tdefine-image \x7b".toList :: ("\t\tdirectory ".toList ++ d) :: [] ::
              "\t\tuse ldconfig".toList :: [] ::
              (ps.flatMap writePathLine ++
                ("\t\x7d".toList :: "\x7d".toList :: rest)) := by
          simp [__wormhole_layer_config_write, strOrNull]
        rw [hsplit, parse_image_opener, parse_dir_line d _ cfg e _ hd, parseLines_blank,
          parse_use_line, parseLines_blank, parse_path_lines ps _ cfg e _ hps]
        rw [parseLines_layer_close _ _ _ _ _ (by decide)]
        show parseLines ("\x7d".toList :: rest) cfg
          (.inEnv { e with layers := e.layers ++ [⟨.image, some d, none, none, true, ps⟩] }) = _
        rw [parse_rbrace_env]

theorem parse_env_header (name : Str) (rest : List Str) (cfg : WConfig)
    (hn : goodWord name = true)
    (hdup : cfg.environments.any (fun e2 => e2.name == name) = false) :
    parseLines (("environment ".toList ++ name ++ " \x7b".toList) :: rest) cfg .top =
      parseLines rest cfg (.inEnv { name := name }) := by
  have hstep : parseLines (("environment ".toList ++ name ++ " \x7b".toList) :: rest)
      cfg .top =
      (if cfg.environments.any (fun e2 => e2.name == name) = true then none
       else parseLines rest cfg (.inEnv { name := name })) := by
    simp only [parseLines]
    rw [tok_env_header name hn]
    rfl
  rw [hstep, if_neg (by simp [hdup])]

theorem parse_profile_header (name : Str) (rest : List Str) (cfg : WConfig)
    (hn : goodWord name = true)
    (hdup : cfg.profiles.any (fun p2 => p2.name == name) = false) :
    parseLines (("profile ".toList ++ name ++ " \x7b".toList) :: rest) cfg .top =
      parseLines rest cfg (.inProfile { name := name }) := by
  have hstep : parseLines (("profile ".toList ++ name ++ " \x7b".toList) :: rest)
      cfg .top =
      (if cfg.profiles.any (fun p2 => p2.name == name) = true then none
       else parseLines rest cfg (.inProfile { name := name })) := by
    simp only [parseLines]
    rw [tok_profile_header name hn]
    rfl
  rw [hstep, if_neg (by simp [hdup])]

theorem parse_env_lines (e : WEnvConfig) (rest : List Str) (cfg : WConfig)
    (he : wfEnv e = true)
    (hdup : cfg.environments.any (fun e2 => e2.name == e.name) = false) :
    parseLines (__wormhole_environment_config_write e ++ rest) cfg .top =
      parseLines rest { cfg with environments := cfg.environments ++ [e] } .top := by
  obtain ⟨nm, pr, rq, ls⟩ := e
  simp only [wfEnv, Bool.and_eq_true] at he
  obtain ⟨⟨⟨hn, hpr⟩, hrq⟩, hls⟩ := he
  match ls, hls with
  | [l], hl =>
    cases hblank : pr.isEmpty && rq.isEmpty with
    | true =>
      have hsplit : __wormhole_environment_config_write ⟨nm, pr, rq, [l]⟩ ++ rest =
          ("environment ".toList ++ nm ++ " \x7b".toList) ::
            (pr.map (fun p => "\tprovides ".toList ++ p) ++
              (rq.map (fun r => "\trequires ".toList ++ r) ++
                (__wormhole_layer_config_write l ++ rest))) := by
        simp [__wormhole_environment_config_write, hblank]
      rw [hsplit, parse_env_header nm _ cfg hn hdup,
        parse_provides_lines pr _ cfg _ hpr, parse_requires_lines rq _ cfg _ hrq,
        parse_layer_block l _ cfg _ hl]
      rfl
    | false =>
      have hsplit : __wormhole_environment_config_write ⟨nm, pr, rq, [l]⟩ ++ rest =
          ("environment ".toList ++ nm ++ " \x7b".toList) ::
            (pr.map (fun p => "\tprovides ".toList ++ p) ++
              (rq.map (fun r => "\trequires ".toList ++ r) ++
                ([] :: (__wormhole_layer_config_write l ++ rest)))) := by
        simp [__wormhole_environment_config_write, hblank]
      rw [hsplit, parse_env_header nm _ cfg hn hdup,
        parse_provides_lines pr _ cfg _ hpr, parse_requires_lines rq _ cfg _ hrq,
        parseLines_blank, parse_layer_block l _ cfg _ hl]
      rfl

theorem parse_wrapper_line (w : Str) (rest : List Str) (cfg : WConfig)
    (p : WProfileConfig) (hw : goodWord w = true) :
    parseLines (("\twrapper ".toList ++ w) :: rest) cfg (.inProfile p) =
      parseLines rest cfg (.inProfile { p with wrapper := some w }) := by
  simp only [parseLines]
  rw [tok_wrapper_line w hw]
  rfl

theorem parse_penv_line (w : Str) (rest : List Str) (cfg : WConfig)
    (p : WProfileConfig) (hw : goodWord w = true) :
    parseLines (("\tenvironment ".toList ++ w) :: rest) cfg (.inProfile p) =
      parseLines rest cfg (.inProfile { p with environment := some w }) := by
  simp only [parseLines]
  rw [tok_penv_line w hw]
  rfl

theorem parse_command_line (w : Str) (rest : List Str) (cfg : WConfig)
    (p : WProfileConfig) (hw : goodWord w = true) :
    parseLines (("\tcommand ".toList ++ w) :: rest) cfg (.inProfile p) =
      parseLines rest cfg (.inProfile { p with command := some w }) := by
  simp only [parseLines]
  rw [tok_command_line w hw]
  rfl

theorem parse_profile_block (p : WProfileConfig) (rest : List Str) (cfg : WConfig)
    (hp : wfProfile p = true)
    (hdup : cfg.profiles.any (fun q => q.name == p.name) = false) :
    parseLines (writeProfileLines p ++ rest) cfg .top =
      parseLines rest { cfg with profiles := cfg.profiles ++ [p] } .top := by
  obtain ⟨nm, wr, cm, en⟩ := p
  simp only [wfProfile, Bool.and_eq_true] at hp
  obtain ⟨⟨⟨hn, hwr⟩, hcm⟩, hen⟩ := hp
  match wr, cm, en, hwr, hcm, hen with
  | none, none, none, hwr, hcm, hen =>
    have hsplit : writeProfileLines ⟨nm, none, none, none⟩ ++ rest =
        [] :: ("profile ".toList ++ nm ++ " \x7b".toList) ::
          ("\x7d".toList :: rest) := by
      simp [writeProfileLines]
    rw [hsplit, parseLines_blank, parse_profile_header nm _ cfg hn hdup, parse_rbrace_profile]
  | none, some c, none, hwr, hcm, hen =>
    have hc : goodWord c = true := by simpa using hcm
    have hsplit : writeProfileLines ⟨nm, none, some c, none⟩ ++ rest =
        [] :: ("profile ".toList ++ nm ++ " \x7b".toList) ::
          ("\tcommand ".toList ++ c) :: ("\x7d".toList :: rest) := by
      simp [writeProfileLines]
    rw [hsplit, parseLines_blank, parse_profile_header nm _ cfg hn hdup, parse_command_line c _ cfg _ hc, parse_rbrace_profile]
  | none, none, some v, hwr, hcm, hen =>
    have hv : goodWord v = true := by simpa using hen
    have hsplit : writeProfileLines ⟨nm, none, none, some v⟩ ++ rest =
        [] :: ("profile ".toList ++ nm ++ " \x7b".toList) ::
          ("\tenvironment ".toList ++ v) :: ("\x7d".toList :: rest) := by
      simp [writeProfileLines]
    rw [hsplit, parseLines_blank, parse_profile_header nm _ cfg hn hdup, parse_penv_line v _ cfg _ hv, parse_rbrace_profile]
  | none, some c, some v, hwr, hcm, hen =>
    have hc : goodWord c = true := by simpa using hcm
    have hv : goodWord v = true := by simpa using hen
    have hsplit : writeProfileLines ⟨nm, none, some c, some v⟩ ++ rest =
        [] :: ("profile ".toList ++ nm ++ " \x7b".toList) ::
          ("\tenvironment ".toList ++ v) :: ("\tcommand ".toList ++ c) :: ("\x7d".toList :: rest) := by
      simp [writeProfileLines]
    rw [hsplit, parseLines_blank, parse_profile_header nm _ cfg hn hdup, parse_penv_line v _ cfg _ hv, parse_command_line c _ cfg _ hc, parse_rbrace_profile]
  | some w, none, none, hwr, hcm, hen =>
    have hw : goodWord w = true := by simpa using hwr
    have hsplit : writeProfileLines ⟨nm, some w, none, none⟩ ++ rest =
        [] :: ("profile ".toList ++ nm ++ " \x7b".toList) ::
          ("\twrapper ".toList ++ w) :: ("\x7d".toList :: rest) := by
      simp [writeProfileLines]
    rw [hsplit, parseLines_blank, parse_profile_header nm _ cfg hn hdup, parse_wrapper_line w _ cfg _ hw, parse_rbrace_profile]
  | some w, some c, none, hwr, hcm, hen =>
    have hw : goodWord w = true := by simpa using hwr
    have hc : goodWord c = true := by simpa using hcm
    have hsplit : writeProfileLines ⟨nm, some w, some c, none⟩ ++ rest =
        [] :: ("profile ".toList ++ nm ++ " \x7b".toList) ::
          ("\twrapper ".toList ++ w) :: ("\tcommand ".toList ++ c) :: ("\x7d".toList :: rest) := by
      simp [writeProfileLines]
    rw [hsplit, parseLines_blank, parse_profile_header nm _ cfg hn hdup, parse_wrapper_line w _ cfg _ hw, parse_command_line c _ cfg _ hc, parse_rbrace_profile]
  | some w, none, some v, hwr, hcm, hen =>
    have hw : goodWord w = true := by simpa using hwr
    have hv : goodWord v = true := by simpa using hen
    have hsplit : writeProfileLines ⟨nm, some w, none, some v⟩ ++ rest =
        [] :: ("profile ".toList ++ nm ++ " \x7b".toList) ::
          ("\twrapper ".toList ++ w) :: ("\tenvironment ".toList ++ v) :: ("\x7d".toList :: rest) := by
      simp [writeProfileLines]
    rw [hsplit, parseLines_blank, parse_profile_header nm _ cfg hn hdup, parse_wrapper_line w _ cfg _ hw, parse_penv_line v _ cfg _ hv, parse_rbrace_profile]
  | some w, some c, some v, hwr, hcm, hen =>
    have hw : goodWord w = true := by simpa using hwr
    have hc : goodWord c = true := by simpa using hcm
    have hv : goodWord v = true := by simpa using hen
    have hsplit : writeProfileLines ⟨nm, some w, some c, some v⟩ ++ rest =
        [] :: ("profile ".toList ++ nm ++ " \x7b".toList) ::
          ("\twrapper ".toList ++ w) :: ("\tenvironment ".toList ++ v) :: ("\tcommand ".toList ++ c) :: ("\x7d".toList :: rest) := by
      simp [writeProfileLines]
    rw [hsplit, parseLines_blank, parse_profile_header nm _ cfg hn hdup, parse_wrapper_line w _ cfg _ hw, parse_penv_line v _ cfg _ hv, parse_command_line c _ cfg _ hc, parse_rbrace_profile]

theorem parse_env_list (envs : List WEnvConfig) :
    ∀ (rest : List Str) (cfg : WConfig), envs.all wfEnv = true →
      ((cfg.environments ++ envs).map (fun e => e.name)).Nodup →
      parseLines (envs.flatMap __wormhole_environment_config_write ++ rest) cfg .top =
      parseLines rest { cfg with environments := cfg.environments ++ envs } .top := by
  induction envs with
  | nil => intro rest cfg _ _; simp
  | cons e envs ih =>
    intro rest cfg hall hnd
    simp only [List.all_cons, Bool.and_eq_true] at hall
    have hmem : e.name ∉ cfg.environments.map (fun x => x.name) := by
      rw [List.map_append, List.map_cons] at hnd
      have := (List.nodup_middle.mp hnd)
      rw [List.nodup_cons] at this
      exact fun hc => this.1 (List.mem_append.mpr (Or.inl hc))
    have hdup : cfg.environments.any (fun e2 => e2.name == e.name) = false := by
      rw [List.any_eq_false]
      intro x hx
      simp only [beq_iff_eq]
      intro heq
      exact hmem (heq ▸ List.mem_map_of_mem (fun y => y.name) hx)
    rw [List.flatMap_cons, List.append_assoc,
      parse_env_lines e _ cfg hall.1 hdup,
      ih _ _ hall.2 (by simpa [List.append_assoc] using hnd)]
    simp

theorem parse_profile_list (prs : List WProfileConfig) :
    ∀ (rest : List Str) (cfg : WConfig), prs.all wfProfile = true →
      ((cfg.profiles ++ prs).map (fun p => p.name)).Nodup →
      parseLines (prs.flatMap writeProfileLines ++ rest) cfg .top =
      parseLines rest { cfg with profiles := cfg.profiles ++ prs } .top := by
  induction prs with
  | nil => intro rest cfg _ _; simp
  | cons p prs ih =>
    intro rest cfg hall hnd
    simp only [List.all_cons, Bool.and_eq_true] at hall
    have hmem : p.name ∉ cfg.profiles.map (fun x => x.name) := by
      rw [List.map_append, List.map_cons] at hnd
      have := (List.nodup_middle.mp hnd)
      rw [List.nodup_cons] at this
      exact fun hc => this.1 (List.mem_append.mpr (Or.inl hc))
    have hdup : cfg.profiles.any (fun q => q.name == p.name) = false := by
      rw [List.any_eq_false]
      intro x hx
      simp only [beq_iff_eq]
      intro heq
      exact hmem (heq ▸ List.mem_map_of_mem (fun y => y.name) hx)
    rw [List.flatMap_cons, List.append_assoc,
      parse_profile_block p _ cfg hall.1 hdup,
      ih _ _ hall.2 (by simpa [List.append_assoc] using hnd)]
    simp

/-- C2 (amended): the config round-trip `parse(emit(C)) = C` holds for
configurations in which every environment carries exactly one
directory-backed Layer or Image layer, every emitted field is a single
parser word (non-empty, no whitespace, first character in [A-Za-z0-9/_]),
paths and layer directories are absolute, no path directive is Hide, mount
directives always name an fstype and name options whenever they name a
device, and environment and profile names are distinct.  As stated the
claim is false: it does not hold for zero-layer or multi-layer
environments, because the layer writer emits the environment's closing
brace itself (part_001:1049-1050) and the environment writer emits none
(part_001:1055-1077) - see the counterexample. -/
theorem wormhole_config_round_trip (cfg : WConfig) (hwf : wfConfig cfg = true) :
    wormhole_config_parse (__wormhole_config_write cfg) = some cfg := by
  obtain ⟨prs, envs⟩ := cfg
  simp only [wfConfig, Bool.and_eq_true, decide_eq_true_eq] at hwf
  obtain ⟨⟨⟨henv, hprof⟩, hnde⟩, hndp⟩ := hwf
  show parseLines (envs.flatMap __wormhole_environment_config_write
    ++ prs.flatMap writeProfileLines) {} .top = _
  rw [parse_env_list envs _ {} henv (by simpa using hnde)]
  rw [show prs.flatMap writeProfileLines = prs.flatMap writeProfileLines ++ []
    from (List.append_nil _).symm]
  rw [parse_profile_list prs [] _ hprof (by simpa using hndp)]
  rfl

/-- A sample configuration exercising every path directive kind the
parser keeps, all three mount argument shapes, ldconfig, provides and
requires, an image environment and two profiles. -/
def sampleLayer : WLayerConfig :=
  { type := .layer, directory := some "/opt/py".toList, useLdconfig := true,
    paths := [
      { type := .bind, path := "/etc/ld.so.cache".toList },
      { type := .bindChildren, path := "/dev".toList },
      { type := .overlay, path := "/usr".toList },
      { type := .overlayChildren, path := "/var".toList },
      { type := .mount, path := "/proc".toList, fstype := some "proc".toList },
      { type := .mount, path := "/sys".toList, fstype := some "sysfs".toList,
        options := some "ro".toList },
      { type := .mount, path := "/tmp2".toList, fstype := some "tmpfs".toList,
        device := some "tmpfs".toList, options := some "size=32m".toList },
      { type := .wormholeCmd, path := "/usr/bin/w".toList } ] }

def sampleCfg : WConfig :=
  { environments := [
      { name := "py".toList, provides := ["python".toList],
        requires := ["base".toList], layers := [sampleLayer] },
      { name := "base".toList,
        layers := [{ type := .image, directory := some "/images/base".toList }] } ],
    profiles := [
      { name := "yast".toList, wrapper := some "/sbin/yast2".toList,
        command := some "/usr/sbin/yast2".toList, environment := some "py".toList },
      { name := "bare".toList } ] }

/-- Witness for C2 at a concrete input: the sample configuration is
well-formed and round-trips. -/
theorem wormhole_config_round_trip_witness :
    wfConfig sampleCfg = true ∧
    wormhole_config_parse (__wormhole_config_write sampleCfg) = some sampleCfg :=
  ⟨by decide, wormhole_config_round_trip sampleCfg (by decide)⟩

/-- An environment with no layers, and one with two layers. -/
def zeroLayerCfg : WConfig :=
  { environments := [{ name := "empty".toList }] }

def twoLayerCfg : WConfig :=
  { environments := [
      { name := "two".toList, layers := [
          { type := .layer, directory := some "/a".toList },
          { type := .layer, directory := some "/b".toList } ] } ] }

/-- Counterexample to C2 as stated: the claim asserts the round-trip "in
particular ... for environments with zero layers and for environments
with two or more layers", but the written text of a zero-layer
environment never closes its block (EOF inside the block), and after a
first layer the stray second closing brace ends the environment so the
second layer's `define-layer` is an unknown toplevel keyword; both parses
fail entirely. -/
theorem wormhole_config_round_trip_zero_two_layer_failure :
    wormhole_config_parse (__wormhole_config_write zeroLayerCfg) = none ∧
    wormhole_config_parse (__wormhole_config_write twoLayerCfg) = none := by
  decide

end Wormhole
